import Mathlib

/-!
# Loopback hexdump driver (`driver.c`)

A shallow embedding of the formatter (`hexdump_buffer`, `hexdump_buffer_final`) and of the
file operations around it (`loop_open`, `loop_write`, `loop_release`, `loop_read`).

Conventions of the embedding:

* a byte (`u8`) is a `Fin 256`; memory seen through a pointer is a function from the index to
  the byte stored there, so that reads past the declared length are reads of whatever the
  memory holds;
* `size_t` is 64 bits wide: sums that the C code computes in `size_t` are reduced modulo `2^64`;
* the text a function writes into its output buffer is a `List Char`, and the returned count
  `lx` is its length;
* `scnprintf (size) ...` keeps at most `size - 1` characters of the formatted text.
-/

namespace LoopDriver

set_option maxRecDepth 100000

/-! ## Constants -/

def BYTES_PER_ROW : Nat := 16
def BYTES_PER_GROUP : Nat := 2
def ADDRESS_WIDTH : Nat := 9
def HEX_WIDTH : Nat := 3

/-- Number of values of a `size_t` (64-bit kernel). -/
def SIZE_MOD : Nat := 2 ^ 64

def EINVAL : Int := 22
def ENOMEM : Int := 12
def EFAULT : Int := 14

abbrev Byte := Fin 256

/-- Memory as seen through a `const u8 *`: the byte stored at each index. -/
abbrev Mem := Nat → Byte

/-! ## `printf` conversions -/

/-- One lowercase hexadecimal digit. -/
def hexDigit (d : Nat) : Char :=
  match d with
  | 0 => '0' | 1 => '1' | 2 => '2' | 3 => '3'
  | 4 => '4' | 5 => '5' | 6 => '6' | 7 => '7'
  | 8 => '8' | 9 => '9' | 10 => 'a' | 11 => 'b'
  | 12 => 'c' | 13 => 'd' | 14 => 'e' | _ => 'f'

/-- Hexadecimal digits of `n`, most significant first, without leading zeros (`0` is "0").
The first argument bounds the number of digits produced. -/
def hexDigitsAux : Nat → Nat → List Char
  | 0, _ => []
  | fuel + 1, n =>
    if n < 16 then [hexDigit n] else hexDigitsAux fuel (n / 16) ++ [hexDigit (n % 16)]

/-- Conversion `%x`: `n + 1` digits are always enough for `n`. -/
def hexDigits (n : Nat) : List Char := hexDigitsAux (n + 1) n

/-- Left padding with `'0'` up to a minimum width. -/
def zeroPad (w : Nat) (ds : List Char) : List Char :=
  List.replicate (w - ds.length) '0' ++ ds

/-- Conversion `"%07zx"`. -/
def fmt_07zx (n : Nat) : List Char := zeroPad 7 (hexDigits n)

/-- Conversion `"%2.2x"` of a `u8`. -/
def fmt_2_2x (b : Byte) : List Char := zeroPad 2 (hexDigits b.val)

/-- Kernel `scnprintf(buf, size, ...)`: at most `size - 1` characters of the formatted text
are stored (then a terminating NUL); the stored characters are returned. -/
def scnprintf (size : Nat) (formatted : List Char) : List Char := formatted.take (size - 1)

/-! ## Formatter state -/

/-- The state `hexdump_buffer` keeps between calls: the function-static `prev_line` and the
file-scope flag `repeated_lines`. -/
structure Formatter where
  prev_line : List Byte
  repeated_lines : Bool
deriving DecidableEq

/-- State at module load: `prev_line` is `""` (sixteen zero bytes), the flag is clear. -/
def Formatter.init : Formatter :=
  { prev_line := List.replicate BYTES_PER_ROW 0, repeated_lines := false }

/-- The `BYTES_PER_ROW` bytes stored at `buf + i`. -/
def row_at (buf : Mem) (i : Nat) : List Byte :=
  (List.range BYTES_PER_ROW).map (fun t => buf (i + t))

/-- Result of `memcmp(prev_line, buf + i, BYTES_PER_ROW)`, up to its sign: `0` exactly when the
two spans hold the same bytes. -/
def memcmp (prev_line : List Byte) (buf : Mem) (i : Nat) : Int :=
  if prev_line = row_at buf i then 0 else 1

/-! ## `hexdump_buffer` -/

/-- Body of the innermost loop, for one value of `k`. -/
def hex_cell (ptr : Mem) (t_len i j k : Nat) : List Char :=
  if i + j + (BYTES_PER_GROUP - k) < t_len then
    scnprintf HEX_WIDTH (fmt_2_2x (ptr (i + j + k - 1)))
  else
    scnprintf HEX_WIDTH [' ', ' ']

/-- The loop `for (k = BYTES_PER_GROUP; k > 0; --k)`, entered with the given `k`. -/
def hex_k_loop (ptr : Mem) (t_len i j : Nat) : Nat → List Char
  | 0 => []
  | k + 1 => hex_cell ptr t_len i j (k + 1) ++ hex_k_loop ptr t_len i j k

/-- The loop `for (j = 0; j < BYTES_PER_ROW; j += BYTES_PER_GROUP)`, entered at `j`; the first
argument bounds the number of iterations. -/
def hex_j_loop (ptr : Mem) (t_len i : Nat) : Nat → Nat → List Char
  | 0, _ => []
  | fuel + 1, j =>
    if j < BYTES_PER_ROW then
      (' ' :: hex_k_loop ptr t_len i j BYTES_PER_GROUP)
        ++ hex_j_loop ptr t_len i fuel (j + BYTES_PER_GROUP)
    else []

/-- The loop `for (i = 0; i < t_len; i += BYTES_PER_ROW)`, entered at `i` with the text written
so far; the first argument bounds the number of iterations. -/
def hexdump_loop (ptr : Mem) (t_len off : Nat) :
    Nat → Nat → Formatter → List Char → Formatter × List Char
  | 0, _, st, hexbuf => (st, hexbuf)
  | fuel + 1, i, st, hexbuf =>
    if i < t_len then
      if memcmp st.prev_line ptr i = 0 then
        hexdump_loop ptr t_len off fuel (i + BYTES_PER_ROW)
          { st with repeated_lines := true } hexbuf
      else
        let hexbuf1 :=
          if st.repeated_lines then hexbuf ++ scnprintf 3 ['*', '\n'] else hexbuf
        let hexbuf2 := hexbuf1 ++ scnprintf ADDRESS_WIDTH (fmt_07zx ((i + off) % SIZE_MOD))
        let hexbuf3 := hexbuf2 ++ hex_j_loop ptr t_len i BYTES_PER_ROW 0
        let hexbuf4 := hexbuf3 ++ ['\n']
        hexdump_loop ptr t_len off fuel (i + BYTES_PER_ROW)
          { prev_line := row_at ptr i, repeated_lines := false } hexbuf4
    else (st, hexbuf)

/-- The padded length: `len`, plus one when `len` is odd. -/
def padded_len (len : Nat) : Nat := if len % 2 ≠ 0 then len + 1 else len

/-- Function `hexdump_buffer(buf, len, hexbuf, off)`: the new formatter state and the text
written to `hexbuf`; the C return value `lx` is the length of that text. -/
def hexdump_buffer (st : Formatter) (buf : Mem) (len off : Nat) : Formatter × List Char :=
  hexdump_loop buf (padded_len len) off (padded_len len) 0 st []

/-- Function `hexdump_buffer_final(buf)`, reading the global `input_file_size`. -/
def hexdump_buffer_final (st : Formatter) (input_file_size : Nat) : Formatter × List Char :=
  let buf1 := if st.repeated_lines then scnprintf 3 ['*', '\n'] else []
  let st1 : Formatter := if st.repeated_lines then { st with repeated_lines := false } else st
  (st1, buf1 ++ scnprintf ADDRESS_WIDTH (fmt_07zx input_file_size ++ ['\n']))

/-! ## File operations -/

/-- The module's global state together with the contents of the output file. -/
structure Driver where
  fmt : Formatter
  input_file_size : Nat
  output_file : List Char
deriving DecidableEq

/-- State after module load, before the first open. -/
def Driver.init : Driver :=
  { fmt := Formatter.init, input_file_size := 0, output_file := [] }

/-- Function `loop_open`: `filp_open` with `O_WRONLY | O_CREAT | O_TRUNC` either fails with an
error code, which is returned, or yields the emptied output file. -/
def loop_open (d : Driver) (filp_open_err : Option Int) : Driver × Int :=
  match filp_open_err with
  | some e => (d, e)
  | none => ({ d with output_file := [] }, 0)

/-- Function `loop_release`; the argument tells whether `kmalloc` succeeds. -/
def loop_release (d : Driver) (kmalloc_ok : Bool) : Driver × Int :=
  if ¬ kmalloc_ok then (d, -ENOMEM)
  else
    let r := hexdump_buffer_final d.fmt d.input_file_size
    ({ fmt := r.1, input_file_size := 0, output_file := d.output_file ++ r.2 }, 0)

/-- Function `loop_read`: always end of stream. -/
def loop_read (d : Driver) : Driver × Int := (d, 0)

/-- What one `write` call meets: the caller's bytes (`len` is their number), whether the two
`kmalloc` calls succeed, how many bytes `copy_from_user` leaves uncopied, and the bytes the
kernel heap holds from the end of `kernel_buffer` on (indexed from the buffer start). -/
structure WriteReq where
  data : List Byte
  kmalloc_kernel_buffer : Bool
  kmalloc_hexbuf : Bool
  copy_from_user : Nat
  heap : Mem

/-- Memory holding the bytes of `data` from index `0`, followed by what `heap` holds. -/
def mem_of (data : List Byte) (heap : Mem) : Mem :=
  fun i => if h : i < data.length then data.get ⟨i, h⟩ else heap i

/-- Contents of `kernel_buffer` after a complete `copy_from_user`. -/
def kernel_buffer (w : WriteReq) : Mem := mem_of w.data w.heap

/-- Function `loop_write`, with the file position `*off` passed in and returned. -/
def loop_write (d : Driver) (off : Nat) (w : WriteReq) : Driver × Nat × Int :=
  let len := w.data.length
  if len = 0 then (d, off, -EINVAL)
  else if ¬ w.kmalloc_kernel_buffer then (d, off, -ENOMEM)
  else if ¬ w.kmalloc_hexbuf then (d, off, -ENOMEM)
  else if w.copy_from_user ≠ 0 then (d, off, -EFAULT)
  else
    let r := hexdump_buffer d.fmt (kernel_buffer w) len off
    ({ fmt := r.1,
       input_file_size := (d.input_file_size + len) % SIZE_MOD,
       output_file := d.output_file ++ r.2 },
     (off + len) % SIZE_MOD,
     (len : Int))

/-- A sequence of `write` calls on one open file, whose position starts at `off`: the final
state, the final position and the values returned, in call order. -/
def run_writes : Driver → Nat → List WriteReq → Driver × Nat × List Int
  | d, off, [] => (d, off, [])
  | d, off, w :: ws =>
    let r := loop_write d off w
    let rest := run_writes r.1 r.2.1 ws
    (rest.1, rest.2.1, r.2.2 :: rest.2.2)

/-- A write request that meets no failure, with a zero-filled heap behind the buffer. -/
def WriteReq.ok (data : List Byte) : WriteReq :=
  { data := data, kmalloc_kernel_buffer := true, kmalloc_hexbuf := true,
    copy_from_user := 0, heap := fun _ => 0 }

/-- One whole session from state `d`: open, the given writes from position `0`, close (all
allocations of open and close succeeding); the result is the state after the close. -/
def session (d : Driver) (ws : List WriteReq) : Driver :=
  (loop_release (run_writes (loop_open d none).1 0 ws).1 true).1

/-- A driver state whose last emitted row is sixteen bytes `0x41`, with the given pending flag
and byte count and an empty output file. -/
def sample_driver (pending : Bool) (total : Nat) : Driver :=
  { fmt := { prev_line := List.replicate 16 0x41, repeated_lines := pending },
    input_file_size := total, output_file := [] }

/-! ## Reference text of the transcript -/

/-- The last `w` hexadecimal digits of `n`, most significant first, leading zeros included. -/
def fixedHex : Nat → Nat → List Char
  | 0, _ => []
  | w + 1, n => fixedHex w (n / 16) ++ [hexDigit (n % 16)]

/-- Characters a hexadecimal conversion can produce. -/
def isHexChar (c : Char) : Bool := "0123456789abcdef".toList.contains c

/-- Two lowercase hexadecimal digits of a byte. -/
def hex2 (b : Byte) : List Char := [hexDigit (b.val / 16), hexDigit (b.val % 16)]

/-- One group of a row line: a space, then the byte at the higher index, then the byte at the
lower index. -/
def spec_group (row : List Byte) (g : Nat) : List Char :=
  ' ' :: (hex2 (row.getD (2 * g + 1) 0) ++ hex2 (row.getD (2 * g) 0))

/-- Row line of a full row: seven-digit address, eight groups, newline. -/
def spec_row_line (addr : Nat) (row : List Byte) : List Char :=
  fixedHex 7 addr ++ (List.range 8).flatMap (spec_group row) ++ ['\n']

/-- Row `r` of a byte sequence: its bytes `16 r .. 16 r + 15`. -/
def chunk_row (chunk : List Byte) (r : Nat) : List Byte := (chunk.drop (16 * r)).take 16

/-- Treatment of row `r` of `chunk`, dumped at base offset `off`, in the words of the
specification: a row equal to `previous_row` emits nothing and sets `pending_repeat`; any other
row emits the marker line if a repeat is pending, clears the flag, emits its row line and
becomes `previous_row`. -/
def spec_row_step (chunk : List Byte) (off : Nat) (acc : Formatter × List Char) (r : Nat) :
    Formatter × List Char :=
  if chunk_row chunk r = acc.1.prev_line then
    ({ prev_line := acc.1.prev_line, repeated_lines := true }, acc.2)
  else
    ({ prev_line := chunk_row chunk r, repeated_lines := false },
      acc.2 ++ (if acc.1.repeated_lines then ['*', '\n'] else [])
        ++ spec_row_line (off + 16 * r) (chunk_row chunk r))

/-- Left fold of `spec_row_step` over the rows `0, 1, ..., chunk.length / 16 - 1`. -/
def spec_hexdump (st : Formatter) (chunk : List Byte) (off : Nat) : Formatter × List Char :=
  (List.range (chunk.length / 16)).foldl (spec_row_step chunk off) (st, [])

/-- The call meets no allocation failure and no transfer fault. -/
def WriteReq.succeeds (w : WriteReq) : Prop :=
  w.kmalloc_kernel_buffer = true ∧ w.kmalloc_hexbuf = true ∧ w.copy_from_user = 0

/-- Row lines of the rows `0 .. n - 1` of a stream dumped from offset `off`, in order. -/
def spec_row_lines (stream : List Byte) (off n : Nat) : List Char :=
  (List.range n).flatMap (fun q => spec_row_line (off + 16 * q) (chunk_row stream q))

/-- No row of the stream equals the row before it, `p` standing before row `0`. -/
def no_repeated_row (p stream : List Byte) : Prop :=
  ∀ q, q < stream.length / 16 →
    chunk_row stream q ≠ (if q = 0 then p else chunk_row stream (q - 1))

/-- Writes that all succeed, each of a positive whole number of rows. -/
def whole_row_writes (ws : List WriteReq) : Prop :=
  ∀ w ∈ ws, w.succeeds ∧ 0 < w.data.length ∧ w.data.length % 16 = 0

/-- Characters of row lines and trailers: hexadecimal digits, space, newline. -/
def isLineChar (c : Char) : Bool := isHexChar c || c == ' ' || c == '\n'

/-- Sum of the lengths of the calls that were accepted, an accepted call being one whose
return value is not negative. -/
def accepted_bytes : List WriteReq → List Int → Nat
  | w :: ws, r :: rs => (if 0 ≤ r then w.data.length else 0) + accepted_bytes ws rs
  | _, _ => 0

/-- Four write calls: sixteen bytes accepted, an empty write, a write whose copy from user
space faults, sixteen more bytes accepted. -/
def sample_calls : List WriteReq :=
  [ WriteReq.ok (List.replicate 16 0x41),
    WriteReq.ok [],
    { data := [1, 2, 3], kmalloc_kernel_buffer := true, kmalloc_hexbuf := true,
      copy_from_user := 3, heap := fun _ => 0 },
    WriteReq.ok (List.replicate 16 0x42) ]

/-- A 3-byte write whose copy from user space leaves all three bytes uncopied. -/
def sample_fault : WriteReq :=
  { data := [1, 2, 3], kmalloc_kernel_buffer := true, kmalloc_hexbuf := true,
    copy_from_user := 3, heap := fun _ => 0 }

/-- Start of the last row the row loop visits for a padded length `t_len` at least 1. -/
def last_row_start (t_len : Nat) : Nat := 16 * ((t_len - 1) / 16)

/-- The buffer `buf` with the byte at index `k` replaced by `v`. -/
def poke (buf : Mem) (k : Nat) (v : Byte) : Mem := fun i => if i = k then v else buf i

/-! ## Trace of the row loop -/

/-- What one iteration of the row loop does with the row starting at `i`: it finds it equal to
`prev_line` and writes nothing, or it writes its row line, after the marker line when
`marker` is set. -/
inductive RowStep where
  | repeated (i : Nat)
  | emitted (i : Nat) (marker : Bool)
deriving DecidableEq

/-- The iterations of the row loop entered at `i` in state `st`, in order: the same tests and
state updates as `hexdump_loop`, recording the decision taken for each row. -/
def hexdump_steps (ptr : Mem) (t_len : Nat) : Nat → Nat → Formatter → List RowStep
  | 0, _, _ => []
  | fuel + 1, i, st =>
    if i < t_len then
      if memcmp st.prev_line ptr i = 0 then
        RowStep.repeated i ::
          hexdump_steps ptr t_len fuel (i + BYTES_PER_ROW) { st with repeated_lines := true }
      else
        RowStep.emitted i st.repeated_lines ::
          hexdump_steps ptr t_len fuel (i + BYTES_PER_ROW)
            { prev_line := row_at ptr i, repeated_lines := false }
    else []

/-- The text one iteration writes to `hexbuf`. -/
def render_step (ptr : Mem) (t_len off : Nat) : RowStep → List Char
  | RowStep.repeated _ => []
  | RowStep.emitted i marker =>
    (if marker then scnprintf 3 ['*', '\n'] else [])
      ++ scnprintf ADDRESS_WIDTH (fmt_07zx ((i + off) % SIZE_MOD))
      ++ hex_j_loop ptr t_len i BYTES_PER_ROW 0 ++ ['\n']

/-- The iterations of one `hexdump_buffer` call. -/
def hexdump_trace (st : Formatter) (buf : Mem) (len : Nat) : List RowStep :=
  hexdump_steps buf (padded_len len) (padded_len len) 0 st

/-- The text begins with an address field: at least seven characters, the first seven of
them hexadecimal digits. -/
def starts_with_address (t : List Char) : Prop :=
  7 ≤ t.length ∧ ∀ c ∈ t.take 7, isHexChar c = true

/-- Every `*` of the text is followed by a newline and then by an address field. -/
def markers_followed (t : List Char) : Prop :=
  ∀ pre post, t = pre ++ '*' :: post → ∃ rest, post = '\n' :: rest ∧ starts_with_address rest

/-- The lines one iteration writes, each with the address it shows: the marker line, when
there is one, shows none; the row line shows `i + off`, computed in `size_t`. -/
def step_lines (ptr : Mem) (t_len off : Nat) : RowStep → List (Option Nat × List Char)
  | RowStep.repeated _ => []
  | RowStep.emitted i marker =>
    (if marker then [(none, scnprintf 3 ['*', '\n'])] else [])
      ++ [(some ((i + off) % SIZE_MOD),
            scnprintf ADDRESS_WIDTH (fmt_07zx ((i + off) % SIZE_MOD))
              ++ hex_j_loop ptr t_len i BYTES_PER_ROW 0 ++ ['\n'])]

/-- The lines one `write` call appends to the output file: those of its `hexdump_buffer` call
when the call is accepted, none when it is rejected. -/
def write_lines (d : Driver) (off : Nat) (w : WriteReq) : List (Option Nat × List Char) :=
  if 0 ≤ (loop_write d off w).2.2 then
    (hexdump_trace d.fmt (kernel_buffer w) w.data.length).flatMap
      (step_lines (kernel_buffer w) (padded_len w.data.length) off)
  else []

/-- The lines a sequence of `write` calls appends to the output file, in order. -/
def run_lines : Driver → Nat → List WriteReq → List (Option Nat × List Char)
  | _, _, [] => []
  | d, off, w :: ws =>
    write_lines d off w ++ run_lines (loop_write d off w).1 (loop_write d off w).2.1 ws

/-- Row line of a full row as the code writes it at any address: the address field kept by
`scnprintf`, the eight groups, the newline. -/
def whole_row_line (addr : Nat) (row : List Byte) : List Char :=
  scnprintf ADDRESS_WIDTH (fmt_07zx (addr % SIZE_MOD))
    ++ (List.range 8).flatMap (spec_group row) ++ ['\n']

/-- The step of `spec_row_step` with the row line written at any address. -/
def whole_row_step (chunk : List Byte) (off : Nat) (acc : Formatter × List Char) (r : Nat) :
    Formatter × List Char :=
  if chunk_row chunk r = acc.1.prev_line then
    ({ prev_line := acc.1.prev_line, repeated_lines := true }, acc.2)
  else
    ({ prev_line := chunk_row chunk r, repeated_lines := false },
      acc.2 ++ (if acc.1.repeated_lines then ['*', '\n'] else [])
        ++ whole_row_line (16 * r + off) (chunk_row chunk r))

/-- Left fold of `whole_row_step` over the rows of a chunk of whole rows. -/
def whole_rows_dump (st : Formatter) (chunk : List Byte) (off : Nat) : Formatter × List Char :=
  (List.range (chunk.length / 16)).foldl (whole_row_step chunk off) (st, [])

/-! ## Reading the transcript back -/

/-- Value of a hexadecimal digit character (`0` for any other character). -/
def hexVal (c : Char) : Nat :=
  match c with
  | '0' => 0 | '1' => 1 | '2' => 2 | '3' => 3
  | '4' => 4 | '5' => 5 | '6' => 6 | '7' => 7
  | '8' => 8 | '9' => 9 | 'a' => 10 | 'b' => 11
  | 'c' => 12 | 'd' => 13 | 'e' => 14 | 'f' => 15
  | _ => 0

/-- The number a string of hexadecimal digits denotes, most significant digit first. -/
def hexValue (ds : List Char) : Nat := ds.foldl (fun acc c => 16 * acc + hexVal c) 0

/-- The lines of a text: the runs of characters between newlines; a last run without newline
counts as a line. -/
def text_lines : List Char → List (List Char)
  | [] => []
  | c :: cs =>
    if c = '\n' then [] :: text_lines cs
    else
      match text_lines cs with
      | [] => [[c]]
      | l :: ls => (c :: l) :: ls

/-- The address a line of the transcript shows, when it is a row line: a row line is a line
with a space in it (the marker line and the trailer have none), and its address is the number
written before the first space. -/
def row_line_address (line : List Char) : Option Nat :=
  if ' ' ∈ line then some (hexValue (line.takeWhile (fun c => c != ' '))) else none

/-- The addresses shown by the row lines of a transcript, in order, read from its text. -/
def shown_row_addresses (text : List Char) : List Nat :=
  (text_lines text).filterMap row_line_address

theorem fixedHex_length (w n : Nat) : (fixedHex w n).length = w := by
  induction w generalizing n with
  | zero => rfl
  | succ w ih => simp [fixedHex, ih]

theorem fixedHex_zero (w : Nat) : fixedHex w 0 = List.replicate w '0' := by
  induction w with
  | zero => rfl
  | succ w ih =>
    simp only [fixedHex, Nat.zero_div, Nat.zero_mod, ih]
    rw [List.replicate_succ', ]
    rfl

theorem zeroPad_snoc (w : Nat) (ds : List Char) (c : Char) :
    zeroPad (w + 1) (ds ++ [c]) = zeroPad w ds ++ [c] := by
  simp [zeroPad]

theorem hexDigitsAux_length_le (fuel n : Nat) : (hexDigitsAux fuel n).length ≤ fuel := by
  induction fuel generalizing n with
  | zero => simp [hexDigitsAux]
  | succ f ih =>
    unfold hexDigitsAux
    split
    · simp
    · have := ih (n / 16)
      simp
      omega

/-- With enough fuel and enough width, padding the digits gives the fixed-width digits. -/
theorem zeroPad_hexDigitsAux (fuel : Nat) :
    ∀ (w n : Nat), 0 < w → n < 16 ^ w → n < 16 ^ fuel →
      zeroPad w (hexDigitsAux fuel n) = fixedHex w n := by
  induction fuel with
  | zero =>
    intro w n _ _ hf
    have h0 : n = 0 := by simpa using hf
    subst h0
    simp [hexDigitsAux, zeroPad, fixedHex_zero]
  | succ f ih =>
    intro w n hw hn hf
    obtain ⟨w, rfl⟩ : ∃ v, w = v + 1 := ⟨w - 1, by omega⟩
    unfold hexDigitsAux
    split
    · rename_i hlt
      have hd : n / 16 = 0 := by omega
      have hm : n % 16 = n := by omega
      simp [zeroPad, fixedHex, hd, hm, fixedHex_zero]
    · rename_i hge
      rw [zeroPad_snoc, fixedHex]
      have hw1 : 0 < w := by
        rcases Nat.eq_zero_or_pos w with h | h
        · subst h; simp at hn; omega
        · exact h
      have h1 : n / 16 < 16 ^ w := by
        rw [Nat.div_lt_iff_lt_mul (by decide)]
        rw [pow_succ] at hn; exact hn
      have h2 : n / 16 < 16 ^ f := by
        rw [Nat.div_lt_iff_lt_mul (by decide)]
        rw [pow_succ] at hf; exact hf
      rw [ih w (n / 16) hw1 h1 h2]

theorem lt_sixteen_pow_succ (n : Nat) : n < 16 ^ (n + 1) :=
  lt_of_lt_of_le (Nat.lt_succ_self n) (Nat.lt_pow_self (by decide) (n + 1)).le

theorem zeroPad_hexDigits (w n : Nat) (hw : 0 < w) (hn : n < 16 ^ w) :
    zeroPad w (hexDigits n) = fixedHex w n :=
  zeroPad_hexDigitsAux (n + 1) w n hw hn (lt_sixteen_pow_succ n)

theorem fmt_07zx_eq (n : Nat) (hn : n < 2 ^ 28) : fmt_07zx n = fixedHex 7 n :=
  zeroPad_hexDigits 7 n (by decide) (by simpa using hn)

theorem fmt_2_2x_eq (b : Byte) : fmt_2_2x b = [hexDigit (b.val / 16), hexDigit (b.val % 16)] := by
  have h := zeroPad_hexDigits 2 b.val (by decide) (by have := b.isLt; omega)
  have hb : b.val / 16 / 16 = 0 := by have := b.isLt; omega
  have hb' : b.val / 16 % 16 = b.val / 16 := by have := b.isLt; omega
  simp [fmt_2_2x, h, fixedHex, hb']

theorem hexDigit_isHexChar (d : Nat) : isHexChar (hexDigit d) = true := by
  unfold hexDigit
  split <;> decide

theorem hexDigitsAux_isHexChar (fuel n : Nat) :
    ∀ c ∈ hexDigitsAux fuel n, isHexChar c = true := by
  induction fuel generalizing n with
  | zero => simp [hexDigitsAux]
  | succ f ih =>
    unfold hexDigitsAux
    split
    · simp [hexDigit_isHexChar]
    · intro c hc
      rcases List.mem_append.mp hc with h | h
      · exact ih _ c h
      · simp at h; subst h; exact hexDigit_isHexChar _

theorem fmt_07zx_isHexChar (n : Nat) : ∀ c ∈ fmt_07zx n, isHexChar c = true := by
  intro c hc
  unfold fmt_07zx zeroPad at hc
  rcases List.mem_append.mp hc with h | h
  · rw [List.mem_replicate] at h; rw [h.2]; decide
  · exact hexDigitsAux_isHexChar _ _ c h

theorem fmt_07zx_length_ge (n : Nat) : 7 ≤ (fmt_07zx n).length := by
  simp [fmt_07zx, zeroPad]; omega

/-! ## One row -/

theorem range_sixteen : List.range 16 = [0,1,2,3,4,5,6,7,8,9,10,11,12,13,14,15] := by decide

theorem row_at_eq (buf : Mem) (i : Nat) :
    row_at buf i = [buf i, buf (i+1), buf (i+2), buf (i+3), buf (i+4), buf (i+5), buf (i+6),
      buf (i+7), buf (i+8), buf (i+9), buf (i+10), buf (i+11), buf (i+12), buf (i+13),
      buf (i+14), buf (i+15)] := by
  simp [row_at, BYTES_PER_ROW, range_sixteen]

theorem hex_cell_present (ptr : Mem) (t_len i j k : Nat)
    (h : i + j + (BYTES_PER_GROUP - k) < t_len) :
    hex_cell ptr t_len i j k = hex2 (ptr (i + j + k - 1)) := by
  simp [hex_cell, h, scnprintf, HEX_WIDTH, fmt_2_2x_eq, hex2]

theorem hex_cell_absent (ptr : Mem) (t_len i j k : Nat)
    (h : ¬ i + j + (BYTES_PER_GROUP - k) < t_len) :
    hex_cell ptr t_len i j k = [' ', ' '] := by
  simp [hex_cell, h, scnprintf, HEX_WIDTH]

theorem hex_k_loop_present (ptr : Mem) (t_len i j : Nat) (h : i + j + 2 ≤ t_len) :
    hex_k_loop ptr t_len i j 2 = hex2 (ptr (i + j + 1)) ++ hex2 (ptr (i + j)) := by
  simp only [hex_k_loop]
  rw [hex_cell_present _ _ _ _ _ (by simp [BYTES_PER_GROUP]; omega),
    hex_cell_present _ _ _ _ _ (by simp [BYTES_PER_GROUP]; omega)]
  simp

theorem hex_k_loop_absent (ptr : Mem) (t_len i j : Nat) (h : t_len ≤ i + j) :
    hex_k_loop ptr t_len i j 2 = [' ', ' ', ' ', ' '] := by
  simp only [hex_k_loop]
  rw [hex_cell_absent _ _ _ _ _ (by simp [BYTES_PER_GROUP]; omega),
    hex_cell_absent _ _ _ _ _ (by simp [BYTES_PER_GROUP]; omega)]
  simp

theorem hex_j_loop_full (ptr : Mem) (t_len i : Nat) (h : i + 16 ≤ t_len) :
    hex_j_loop ptr t_len i 16 0
      = (List.range 8).flatMap (spec_group (row_at ptr i)) := by
  have e8 : List.range 8 = [0,1,2,3,4,5,6,7] := by decide
  rw [e8, row_at_eq]
  simp only [BYTES_PER_ROW, BYTES_PER_GROUP, hex_j_loop]
  simp only [show (0:Nat) < 16 from by decide, show (0:Nat) + 2 < 16 from by decide, if_true]
  rw [hex_k_loop_present _ _ _ 0 (by omega), hex_k_loop_present _ _ _ 2 (by omega),
    hex_k_loop_present _ _ _ 4 (by omega), hex_k_loop_present _ _ _ 6 (by omega),
    hex_k_loop_present _ _ _ 8 (by omega), hex_k_loop_present _ _ _ 10 (by omega),
    hex_k_loop_present _ _ _ 12 (by omega), hex_k_loop_present _ _ _ 14 (by omega)]
  simp [spec_group]

/-! ## Chunks of whole rows -/

theorem row_at_mem_of (chunk : List Byte) (heap : Mem) (r : Nat)
    (h : 16 * r + 16 ≤ chunk.length) :
    row_at (mem_of chunk heap) (16 * r) = chunk_row chunk r := by
  unfold row_at chunk_row BYTES_PER_ROW
  apply List.ext_getElem
  · simp; omega
  · intro n h1 h2
    simp at h1
    simp [mem_of]
    rw [dif_pos (by omega)]

/-- On a chunk of whole rows the row loop, entered at row `r` with `n` rows left and enough
fuel, is the fold of `spec_row_step` over those rows. -/
theorem hexdump_loop_aligned (chunk : List Byte) (heap : Mem) (off : Nat)
    (hoff : off + chunk.length < 2 ^ 28 + 16) :
    ∀ (n r fuel : Nat) (st : Formatter) (hexbuf : List Char),
      16 * (r + n) = chunk.length → n ≤ fuel →
      hexdump_loop (mem_of chunk heap) chunk.length off fuel (16 * r) st hexbuf
        = (List.range' r n).foldl (spec_row_step chunk off) (st, hexbuf) := by
  intro n
  induction n with
  | zero =>
    intro r fuel st hexbuf hr _
    cases fuel with
    | zero => simp [hexdump_loop]
    | succ f => simp [hexdump_loop]; intro h; omega
  | succ n ih =>
    intro r fuel st hexbuf hr hf
    obtain ⟨f, rfl⟩ : ∃ f, fuel = f + 1 := ⟨fuel - 1, by omega⟩
    have hrow := row_at_mem_of chunk heap r (by omega)
    have hi : 16 * r < chunk.length := by omega
    have hadd : (16 * r + off) % SIZE_MOD = off + 16 * r := by
      unfold SIZE_MOD; omega
    rw [List.range'_succ, List.foldl_cons]
    unfold hexdump_loop
    rw [if_pos hi]
    by_cases hq : chunk_row chunk r = st.prev_line
    · have hm : memcmp st.prev_line (mem_of chunk heap) (16 * r) = 0 := by
        simp [memcmp, hrow, hq]
      rw [if_pos hm]
      have := ih (r + 1) f { st with repeated_lines := true } hexbuf (by omega) (by omega)
      simp only [BYTES_PER_ROW]
      rw [show 16 * r + 16 = 16 * (r + 1) by ring, this]
      simp [spec_row_step, hq]
    · have hm : ¬ memcmp st.prev_line (mem_of chunk heap) (16 * r) = 0 := by
        simp [memcmp, hrow]; intro h; exact hq h.symm
      rw [if_neg hm]
      simp only [BYTES_PER_ROW]
      rw [show 16 * r + 16 = 16 * (r + 1) by ring, ih (r + 1) f _ _ (by omega) (by omega)]
      congr 1
      simp only [spec_row_step, if_neg hq, hrow, hadd]
      rw [hex_j_loop_full _ _ _ (by omega), hrow]
      rw [fmt_07zx_eq _ (by omega)]
      cases st.repeated_lines <;>
        simp [scnprintf, ADDRESS_WIDTH, spec_row_line, fixedHex_length, List.take_append_of_le_length]

theorem padded_len_aligned (len : Nat) (h : len % 16 = 0) : padded_len len = len := by
  unfold padded_len
  rw [if_neg]
  omega

theorem hexdump_buffer_aligned (st : Formatter) (chunk : List Byte) (heap : Mem) (off : Nat)
    (hlen : chunk.length % 16 = 0) (hoff : off + chunk.length < 2 ^ 28 + 16) :
    hexdump_buffer st (mem_of chunk heap) chunk.length off = spec_hexdump st chunk off := by
  unfold hexdump_buffer spec_hexdump
  rw [padded_len_aligned _ hlen, List.range_eq_range']
  have h := hexdump_loop_aligned chunk heap off hoff (chunk.length / 16) 0 chunk.length st []
    (by omega) (by omega)
  simpa using h

theorem spec_hexdump_one_row (st : Formatter) (chunk : List Byte) (off : Nat)
    (hlen : chunk.length = 16) :
    spec_hexdump st chunk off = spec_row_step chunk off (st, []) 0 := by
  have e1 : List.range 1 = [0] := by decide
  simp [spec_hexdump, hlen, e1]

theorem chunk_row_zero (chunk : List Byte) (hlen : chunk.length = 16) :
    chunk_row chunk 0 = chunk := by
  simp [chunk_row, ← hlen]

/-- For totals below `2^28` the trailer is the marker line, if one is pending, then the seven
digits of the total and a newline; the flag is left clear. -/
theorem hexdump_buffer_final_small (st : Formatter) (total : Nat) (h : total < 2 ^ 28) :
    hexdump_buffer_final st total
      = ({ prev_line := st.prev_line, repeated_lines := false },
          (if st.repeated_lines then ['*', '\n'] else []) ++ fixedHex 7 total ++ ['\n']) := by
  unfold hexdump_buffer_final
  rw [fmt_07zx_eq total h]
  cases st with
  | mk p r =>
    cases r <;> simp [scnprintf, ADDRESS_WIDTH, fixedHex_length, List.take_of_length_le]

theorem star_not_in_trailer (total : Nat) :
    '*' ∉ scnprintf ADDRESS_WIDTH (fmt_07zx total ++ ['\n']) := by
  intro h
  have h1 := List.mem_of_mem_take h
  rcases List.mem_append.mp h1 with h2 | h2
  · have := fmt_07zx_isHexChar total _ h2
    revert this; decide
  · simp at h2

theorem loop_write_ok (d : Driver) (off : Nat) (w : WriteReq) (hs : w.succeeds)
    (hlen : 0 < w.data.length) :
    loop_write d off w
      = ({ fmt := (hexdump_buffer d.fmt (mem_of w.data w.heap) w.data.length off).1,
           input_file_size := (d.input_file_size + w.data.length) % SIZE_MOD,
           output_file := d.output_file
              ++ (hexdump_buffer d.fmt (mem_of w.data w.heap) w.data.length off).2 },
         (off + w.data.length) % SIZE_MOD, (w.data.length : Int)) := by
  obtain ⟨h1, h2, h3⟩ := hs
  have h0 : w.data.length ≠ 0 := by omega
  simp [loop_write, h0, h1, h2, h3, kernel_buffer]

theorem flatMap_congr_mem {α β : Type} (l : List α) (f g : α → List β)
    (h : ∀ x ∈ l, f x = g x) : l.flatMap f = l.flatMap g := by
  induction l with
  | nil => rfl
  | cons a t ih =>
    simp only [List.flatMap_cons]
    rw [h a (List.mem_cons_self _ _), ih (fun x hx => h x (List.mem_cons_of_mem _ hx))]

theorem chunk_row_append_left (c s : List Byte) (q : Nat) (h : 16 * q + 16 ≤ c.length) :
    chunk_row (c ++ s) q = chunk_row c q := by
  unfold chunk_row
  rw [List.drop_append_of_le_length (by omega), List.take_append_of_le_length]
  simp; omega

theorem chunk_row_append_right (c s : List Byte) (m q : Nat) (h : c.length = 16 * m) :
    chunk_row (c ++ s) (m + q) = chunk_row s q := by
  unfold chunk_row
  rw [show 16 * (m + q) = c.length + 16 * q by omega, List.drop_append]

/-- Fold of the reference step over rows none of which repeats the row before it. -/
theorem spec_fold_no_repeat (chunk : List Byte) (off : Nat) :
    ∀ (n r : Nat) (p : List Byte) (out : List Char),
      (∀ q, r ≤ q → q < r + n →
        chunk_row chunk q ≠ (if q = r then p else chunk_row chunk (q - 1))) →
      (List.range' r n).foldl (spec_row_step chunk off) ({ prev_line := p, repeated_lines := false }, out)
        = ({ prev_line := if n = 0 then p else chunk_row chunk (r + n - 1),
             repeated_lines := false },
           out ++ (List.range' r n).flatMap
              (fun q => spec_row_line (off + 16 * q) (chunk_row chunk q))) := by
  intro n
  induction n with
  | zero => intro r p out _; simp
  | succ n ih =>
    intro r p out h
    have h0 := h r (le_refl r) (by omega)
    rw [if_pos rfl] at h0
    rw [List.range'_succ, List.foldl_cons]
    have hstep : spec_row_step chunk off ({ prev_line := p, repeated_lines := false }, out) r
        = ({ prev_line := chunk_row chunk r, repeated_lines := false },
            out ++ spec_row_line (off + 16 * r) (chunk_row chunk r)) := by
      simp [spec_row_step, h0]
    rw [hstep, ih (r + 1) (chunk_row chunk r) _ ?_]
    · simp only [List.flatMap_cons, List.append_assoc]
      congr 2
      · by_cases hn : n = 0
        · simp [hn]
        · simp [hn]
    · intro q hq1 hq2
      have := h q (by omega) (by omega)
      rw [if_neg (by omega)] at this
      by_cases hq : q = r + 1
      · subst hq; simpa using this
      · rw [if_neg hq]; exact this

theorem spec_hexdump_no_repeat (p chunk : List Byte) (off : Nat) (h : no_repeated_row p chunk) :
    spec_hexdump { prev_line := p, repeated_lines := false } chunk off
      = ({ prev_line := if chunk.length / 16 = 0 then p
                        else chunk_row chunk (chunk.length / 16 - 1),
           repeated_lines := false },
          spec_row_lines chunk off (chunk.length / 16)) := by
  unfold spec_hexdump spec_row_lines
  rw [List.range_eq_range']
  have := spec_fold_no_repeat chunk off (chunk.length / 16) 0 p [] (by
    intro q _ hq
    exact h q (by omega))
  simpa using this

theorem spec_row_lines_append (c s : List Byte) (off m k : Nat) (h : c.length = 16 * m) :
    spec_row_lines (c ++ s) off (m + k)
      = spec_row_lines c off m ++ spec_row_lines s (off + 16 * m) k := by
  unfold spec_row_lines
  rw [List.range_add, List.flatMap_append, List.flatMap_map]
  congr 1
  · apply flatMap_congr_mem
    intro q hq
    rw [List.mem_range] at hq
    rw [chunk_row_append_left _ _ _ (by omega)]
  · apply flatMap_congr_mem
    intro q _
    rw [chunk_row_append_right _ _ _ _ h, show off + 16 * (m + q) = off + 16 * m + 16 * q by ring]

/-- Writes of whole rows none of which repeats the row before it: every row gets its line, the
counters advance by the stream length and every call returns its length. -/
theorem run_writes_no_repeat :
    ∀ (ws : List WriteReq) (d : Driver) (off : Nat) (p : List Byte),
      whole_row_writes ws →
      d.fmt = { prev_line := p, repeated_lines := false } →
      off + (ws.flatMap (·.data)).length < 2 ^ 28 →
      d.input_file_size + (ws.flatMap (·.data)).length < 2 ^ 64 →
      no_repeated_row p (ws.flatMap (·.data)) →
      run_writes d off ws
        = ({ fmt := { prev_line :=
                        if (ws.flatMap (·.data)).length / 16 = 0 then p
                        else chunk_row (ws.flatMap (·.data))
                              ((ws.flatMap (·.data)).length / 16 - 1),
                      repeated_lines := false },
             input_file_size := d.input_file_size + (ws.flatMap (·.data)).length,
             output_file := d.output_file
                ++ spec_row_lines (ws.flatMap (·.data)) off
                    ((ws.flatMap (·.data)).length / 16) },
           off + (ws.flatMap (·.data)).length,
           ws.map (fun w => (w.data.length : Int))) := by
  intro ws
  induction ws with
  | nil =>
    intro d off p _ hd _ _ _
    cases d
    simp at hd
    simp [run_writes, spec_row_lines, hd]
  | cons w rest ih =>
    intro d off p hws hd hoff htot hnr
    obtain ⟨hsucc, hpos, hal⟩ := hws w (List.mem_cons_self _ _)
    have hrest : whole_row_writes rest := fun x hx => hws x (List.mem_cons_of_mem _ hx)
    simp only [List.flatMap_cons, List.length_append] at hoff htot
    simp only [List.flatMap_cons] at hnr ⊢
    generalize hs : rest.flatMap (·.data) = s at *
    obtain ⟨m, hm⟩ : ∃ m, w.data.length = 16 * m := ⟨w.data.length / 16, by omega⟩
    -- the rows of this call
    have hnr1 : no_repeated_row p w.data := by
      intro q hq
      have h := hnr q (by simp; omega)
      rw [chunk_row_append_left _ _ _ (by omega)] at h
      by_cases hq0 : q = 0
      · simpa [hq0] using h
      · rw [if_neg hq0] at h ⊢
        rw [chunk_row_append_left _ _ _ (by omega)] at h
        exact h
    have hdump := hexdump_buffer_aligned d.fmt w.data w.heap off hal (by omega)
    rw [hd, spec_hexdump_no_repeat p w.data off hnr1, ← hd] at hdump
    have hm0 : ¬ w.data.length / 16 = 0 := by omega
    rw [if_neg hm0] at hdump
    -- the rows of the later calls
    have hnr2 : no_repeated_row (chunk_row w.data (w.data.length / 16 - 1)) s := by
      intro q hq
      have h := hnr (m + q) (by simp; omega)
      rw [chunk_row_append_right _ _ _ _ hm, if_neg (by omega)] at h
      by_cases hq0 : q = 0
      · subst hq0
        rw [if_pos rfl]
        rw [show m + 0 - 1 = m - 1 by omega, chunk_row_append_left _ _ _ (by omega)] at h
        rw [show w.data.length / 16 - 1 = m - 1 by omega]
        exact h
      · rw [if_neg hq0]
        rw [show m + q - 1 = m + (q - 1) by omega, chunk_row_append_right _ _ _ _ hm] at h
        exact h
    have hoff1 : (off + w.data.length) % SIZE_MOD = off + w.data.length := by
      unfold SIZE_MOD; omega
    have hsz1 : (d.input_file_size + w.data.length) % SIZE_MOD
        = d.input_file_size + w.data.length := by
      unfold SIZE_MOD; omega
    unfold run_writes
    rw [loop_write_ok d off w hsucc hpos, hdump, hoff1, hsz1]
    simp only
    rw [ih _ (off + w.data.length) (chunk_row w.data (w.data.length / 16 - 1)) hrest rfl
      (by omega) (by simp only; omega) hnr2]
    have hk : (w.data ++ s).length / 16 = m + s.length / 16 := by
      rw [List.length_append, hm]; omega
    have hlines : spec_row_lines (w.data ++ s) off ((w.data ++ s).length / 16)
        = spec_row_lines w.data off (w.data.length / 16)
          ++ spec_row_lines s (off + w.data.length) (s.length / 16) := by
      rw [hk, spec_row_lines_append _ _ _ _ _ hm, hm]
      congr 2
      omega
    have hprev : (if s.length / 16 = 0 then chunk_row w.data (w.data.length / 16 - 1)
          else chunk_row s (s.length / 16 - 1))
        = (if (w.data ++ s).length / 16 = 0 then p
          else chunk_row (w.data ++ s) ((w.data ++ s).length / 16 - 1)) := by
      rw [if_neg (by omega : ¬ (w.data ++ s).length / 16 = 0), hk]
      by_cases h0 : s.length / 16 = 0
      · rw [if_pos h0, h0, chunk_row_append_left _ _ _ (by omega)]
        congr 1; omega
      · rw [if_neg h0, show m + s.length / 16 - 1 = m + (s.length / 16 - 1) by omega,
          chunk_row_append_right _ _ _ _ hm]
    rw [hlines, hprev]
    simp [List.length_append, Nat.add_assoc]

theorem fixedHex_isLineChar (w n : Nat) : ∀ c ∈ fixedHex w n, isLineChar c = true := by
  induction w generalizing n with
  | zero => simp [fixedHex]
  | succ w ih =>
    intro c hc
    unfold fixedHex at hc
    rcases List.mem_append.mp hc with h | h
    · exact ih _ c h
    · simp at h; subst h; simp [isLineChar, hexDigit_isHexChar]

theorem spec_group_isLineChar (row : List Byte) (g : Nat) :
    ∀ c ∈ spec_group row g, isLineChar c = true := by
  intro c hc
  simp only [spec_group, hex2, List.mem_cons, List.mem_append, List.mem_singleton,
    List.not_mem_nil, or_false] at hc
  rcases hc with h | (h | h) | (h | h) <;> subst h <;>
    first | rfl | simp [isLineChar, hexDigit_isHexChar]

theorem spec_row_line_isLineChar (addr : Nat) (row : List Byte) :
    ∀ c ∈ spec_row_line addr row, isLineChar c = true := by
  intro c hc
  unfold spec_row_line at hc
  rcases List.mem_append.mp hc with h | h
  · rcases List.mem_append.mp h with h | h
    · exact fixedHex_isLineChar _ _ c h
    · rw [List.mem_flatMap] at h
      obtain ⟨g, _, hg⟩ := h
      exact spec_group_isLineChar row g c hg
  · simp at h; subst h; rfl

theorem spec_row_lines_isLineChar (stream : List Byte) (off n : Nat) :
    ∀ c ∈ spec_row_lines stream off n, isLineChar c = true := by
  intro c hc
  unfold spec_row_lines at hc
  rw [List.mem_flatMap] at hc
  obtain ⟨q, _, hq⟩ := hc
  exact spec_row_line_isLineChar _ _ c hq

theorem spec_hexdump_two_rows (st : Formatter) (chunk : List Byte) (off : Nat)
    (hlen : chunk.length = 32) :
    spec_hexdump st chunk off
      = spec_row_step chunk off (spec_row_step chunk off (st, []) 0) 1 := by
  have e2 : List.range 2 = [0, 1] := by decide
  simp [spec_hexdump, hlen, e2]

theorem chunk_row_double (P : List Byte) (hP : P.length = 16) :
    chunk_row (P ++ P) 0 = P ∧ chunk_row (P ++ P) 1 = P := by
  constructor
  · rw [chunk_row_append_left _ _ _ (by omega), chunk_row_zero P hP]
  · have := chunk_row_append_right P P 1 0 (by omega)
    rw [show 1 + 0 = 1 by rfl] at this
    rw [this, chunk_row_zero P hP]

theorem loop_write_aligned (d : Driver) (off : Nat) (w : WriteReq) (hs : w.succeeds)
    (hpos : 0 < w.data.length) (hal : w.data.length % 16 = 0)
    (hoff : off + w.data.length < 2 ^ 28 + 16) :
    loop_write d off w
      = ({ fmt := (spec_hexdump d.fmt w.data off).1,
           input_file_size := (d.input_file_size + w.data.length) % SIZE_MOD,
           output_file := d.output_file ++ (spec_hexdump d.fmt w.data off).2 },
         (off + w.data.length) % SIZE_MOD, (w.data.length : Int)) := by
  rw [loop_write_ok d off w hs hpos, hexdump_buffer_aligned d.fmt w.data w.heap off hal hoff]

theorem spec_hexdump_new_row (p R : List Byte) (b : Bool) (off : Nat) (hR : R.length = 16)
    (hne : R ≠ p) :
    spec_hexdump { prev_line := p, repeated_lines := b } R off
      = ({ prev_line := R, repeated_lines := false },
          (if b then ['*', '\n'] else []) ++ spec_row_line off R) := by
  rw [spec_hexdump_one_row _ _ _ hR]
  simp [spec_row_step, chunk_row_zero R hR, hne]

theorem spec_hexdump_same_row (p : List Byte) (b : Bool) (off : Nat) (hp : p.length = 16) :
    spec_hexdump { prev_line := p, repeated_lines := b } p off
      = ({ prev_line := p, repeated_lines := true }, []) := by
  rw [spec_hexdump_one_row _ _ _ hp]
  simp [spec_row_step, chunk_row_zero p hp]

theorem spec_hexdump_new_row_twice (p P : List Byte) (b : Bool) (off : Nat)
    (hP : P.length = 16) (hne : P ≠ p) :
    spec_hexdump { prev_line := p, repeated_lines := b } (P ++ P) off
      = ({ prev_line := P, repeated_lines := true },
          (if b then ['*', '\n'] else []) ++ spec_row_line off P) := by
  rw [spec_hexdump_two_rows _ _ _ (by simp [hP])]
  obtain ⟨h0, h1⟩ := chunk_row_double P hP
  simp [spec_row_step, h0, h1, hne]

/-- A call is either rejected, with a negative return value and nothing changed, or accepted,
returning its length and advancing both counters by it. -/
theorem loop_write_cases (d : Driver) (off : Nat) (w : WriteReq) :
    ((loop_write d off w).2.2 < 0 ∧ (loop_write d off w).1 = d ∧ (loop_write d off w).2.1 = off)
    ∨ ((loop_write d off w).2.2 = (w.data.length : Int)
        ∧ (loop_write d off w).1.input_file_size
            = (d.input_file_size + w.data.length) % SIZE_MOD
        ∧ (loop_write d off w).2.1 = (off + w.data.length) % SIZE_MOD) := by
  unfold loop_write
  by_cases h0 : w.data.length = 0
  · left; simp [h0, EINVAL]
  · by_cases h1 : w.kmalloc_kernel_buffer = true
    · by_cases h2 : w.kmalloc_hexbuf = true
      · by_cases h3 : w.copy_from_user = 0
        · right; simp [h0, h1, h2, h3]
        · left; simp [h0, h1, h2, h3, EFAULT]
      · left; simp [h0, h1, h2, ENOMEM]
    · left; simp [h0, h1, ENOMEM]

theorem run_writes_counters :
    ∀ (ws : List WriteReq) (d : Driver) (off : Nat),
      off < SIZE_MOD → d.input_file_size < SIZE_MOD →
      List.Forall₂ (fun w ret => ret = (w.data.length : Int) ∨ ret < 0) ws (run_writes d off ws).2.2
      ∧ (run_writes d off ws).2.1
          = (off + accepted_bytes ws (run_writes d off ws).2.2) % SIZE_MOD
      ∧ (run_writes d off ws).1.input_file_size
          = (d.input_file_size + accepted_bytes ws (run_writes d off ws).2.2) % SIZE_MOD := by
  intro ws
  induction ws with
  | nil =>
    intro d off ho hd
    simp [run_writes, accepted_bytes, Nat.mod_eq_of_lt ho, Nat.mod_eq_of_lt hd]
  | cons w rest ih =>
    intro d off ho hd
    have hM : 0 < SIZE_MOD := by decide
    simp only [run_writes, accepted_bytes]
    rcases loop_write_cases d off w with ⟨hr, hst, hoff⟩ | ⟨hr, hsz, hoff⟩
    · obtain ⟨f, o, s⟩ := ih (loop_write d off w).1 (loop_write d off w).2.1
        (by rw [hoff]; exact ho) (by rw [hst]; exact hd)
      refine ⟨List.Forall₂.cons (Or.inr hr) f, ?_, ?_⟩
      · rw [o, hoff, if_neg (by omega)]; simp
      · rw [s, hst, if_neg (by omega)]; simp
    · obtain ⟨f, o, s⟩ := ih (loop_write d off w).1 (loop_write d off w).2.1
        (by rw [hoff]; exact Nat.mod_lt _ hM) (by rw [hsz]; exact Nat.mod_lt _ hM)
      refine ⟨List.Forall₂.cons (Or.inl hr) f, ?_, ?_⟩
      · rw [o, hoff, if_pos (by rw [hr]; exact Int.natCast_nonneg _), Nat.mod_add_mod, Nat.add_assoc]
      · rw [s, hsz, if_pos (by rw [hr]; exact Int.natCast_nonneg _), Nat.mod_add_mod, Nat.add_assoc]

/-- The group loop runs its eight iterations within its bound, whatever the row. -/
theorem hex_j_loop_eq (ptr : Mem) (t_len i : Nat) :
    hex_j_loop ptr t_len i BYTES_PER_ROW 0
      = (List.range 8).flatMap (fun g => ' ' :: hex_k_loop ptr t_len i (2 * g) BYTES_PER_GROUP) := by
  have e8 : List.range 8 = [0,1,2,3,4,5,6,7] := by decide
  rw [e8]
  simp [BYTES_PER_ROW, BYTES_PER_GROUP, hex_j_loop]

/-- The row loop leaves by its test `i < t_len`, not by its bound: any two bounds that cover
the rows still to come give the same result. The bound `t_len` used by `hexdump_buffer` is one
of them. -/
theorem hexdump_loop_fuel (ptr : Mem) (t_len off : Nat) :
    ∀ (f1 f2 i : Nat) (st : Formatter) (hexbuf : List Char),
      t_len ≤ i + 16 * f1 → t_len ≤ i + 16 * f2 →
      hexdump_loop ptr t_len off f1 i st hexbuf = hexdump_loop ptr t_len off f2 i st hexbuf := by
  intro f1
  induction f1 with
  | zero =>
    intro f2 i st hexbuf h1 _
    cases f2 with
    | zero => rfl
    | succ f2 => unfold hexdump_loop; rw [if_neg (by omega)]
  | succ f1 ih =>
    intro f2 i st hexbuf h1 h2
    cases f2 with
    | zero => unfold hexdump_loop; rw [if_neg (by omega)]
    | succ f2 =>
      unfold hexdump_loop
      by_cases hi : i < t_len
      · rw [if_pos hi, if_pos hi]
        have e1 : t_len ≤ i + BYTES_PER_ROW + 16 * f1 := by unfold BYTES_PER_ROW; omega
        have e2 : t_len ≤ i + BYTES_PER_ROW + 16 * f2 := by unfold BYTES_PER_ROW; omega
        split
        · exact ih f2 _ _ _ e1 e2
        · exact ih f2 _ _ _ e1 e2
      · rw [if_neg hi, if_neg hi]

theorem hexdump_loop_done (ptr : Mem) (t_len off fuel i : Nat) (st : Formatter)
    (hexbuf : List Char) (h : t_len ≤ i) :
    hexdump_loop ptr t_len off fuel i st hexbuf = (st, hexbuf) := by
  cases fuel with
  | zero => rfl
  | succ f => unfold hexdump_loop; rw [if_neg (by omega)]

/-- After the row loop has visited at least one row, `prev_line` holds the sixteen bytes stored
at the start of the last row visited. -/
theorem hexdump_loop_prev_line (ptr : Mem) (t_len off : Nat) :
    ∀ (fuel i : Nat) (st : Formatter) (hexbuf : List Char),
      i < t_len → t_len ≤ i + 16 * fuel →
      (hexdump_loop ptr t_len off fuel i st hexbuf).1.prev_line
        = row_at ptr (i + 16 * ((t_len - 1 - i) / 16)) := by
  intro fuel
  induction fuel with
  | zero => intro i st hexbuf h1 h2; omega
  | succ f ih =>
    intro i st hexbuf h1 h2
    unfold hexdump_loop
    rw [if_pos h1]
    simp only [BYTES_PER_ROW]
    by_cases hnext : i + 16 < t_len
    · have e : i + 16 + 16 * ((t_len - 1 - (i + 16)) / 16) = i + 16 * ((t_len - 1 - i) / 16) := by
        omega
      split
      · rw [ih _ _ _ hnext (by omega), e]
      · rw [ih _ _ _ hnext (by omega), e]
    · have e : i + 16 * ((t_len - 1 - i) / 16) = i := by omega
      rw [e]
      split
      · rename_i hm
        rw [hexdump_loop_done _ _ _ _ _ _ _ (by omega)]
        simp only [memcmp] at hm
        split at hm
        · rename_i heq; exact heq
        · simp at hm
      · rw [hexdump_loop_done _ _ _ _ _ _ _ (by omega)]

theorem padded_len_pos (len : Nat) (h : 1 ≤ len) : 1 ≤ padded_len len := by
  unfold padded_len; split <;> omega

theorem hexdump_buffer_prev_line (st : Formatter) (buf : Mem) (len off : Nat) (h : 1 ≤ len) :
    (hexdump_buffer st buf len off).1.prev_line = row_at buf (last_row_start (padded_len len)) := by
  have hp := padded_len_pos len h
  unfold hexdump_buffer
  rw [hexdump_loop_prev_line buf _ off _ 0 st [] (by omega) (by omega)]
  simp [last_row_start]

theorem last_row_covers_past_len (len : Nat) (h : len % 16 ≠ 0) :
    last_row_start (padded_len len) ≤ len ∧ len ≤ last_row_start (padded_len len) + 15 := by
  unfold last_row_start padded_len
  split <;> omega

theorem row_at_poke_last (buf : Mem) (i : Nat) (v : Byte) (hv : v ≠ buf (i + 15)) :
    row_at (poke buf (i + 15) v) i ≠ row_at buf i := by
  intro heq
  have h := congrArg (fun l => l.getD 15 0) heq
  simp [row_at_eq, poke] at h
  exact hv h

/-- The text of the row loop is the text already written followed by what its iterations
write, in order. -/
theorem hexdump_loop_text (ptr : Mem) (t_len off : Nat) :
    ∀ (fuel i : Nat) (st : Formatter) (hexbuf : List Char),
      (hexdump_loop ptr t_len off fuel i st hexbuf).2
        = hexbuf ++ (hexdump_steps ptr t_len fuel i st).flatMap (render_step ptr t_len off) := by
  intro fuel
  induction fuel with
  | zero => intro i st hexbuf; simp [hexdump_loop, hexdump_steps]
  | succ f ih =>
    intro i st hexbuf
    unfold hexdump_loop hexdump_steps
    by_cases hi : i < t_len
    · rw [if_pos hi, if_pos hi]
      by_cases hm : memcmp st.prev_line ptr i = 0
      · rw [if_pos hm, if_pos hm, ih]
        simp [render_step]
      · rw [if_neg hm, if_neg hm]
        simp only [ih, List.flatMap_cons, render_step]
        cases st.repeated_lines <;> simp
    · rw [if_neg hi, if_neg hi]; simp

theorem hexdump_buffer_text (st : Formatter) (buf : Mem) (len off : Nat) :
    (hexdump_buffer st buf len off).2
      = (hexdump_trace st buf len).flatMap (render_step buf (padded_len len) off) := by
  unfold hexdump_buffer hexdump_trace
  rw [hexdump_loop_text]
  simp

theorem starts_with_address_append (t u : List Char) (h : starts_with_address t) :
    starts_with_address (t ++ u) := by
  obtain ⟨h1, h2⟩ := h
  refine ⟨by rw [List.length_append]; omega, ?_⟩
  rw [List.take_append_of_le_length h1]
  exact h2

theorem markers_followed_of_no_star (t : List Char) (h : '*' ∉ t) : markers_followed t := by
  intro pre post heq
  exfalso
  apply h
  rw [heq]
  simp

theorem markers_followed_append (t u : List Char) (ht : markers_followed t)
    (hu : markers_followed u) : markers_followed (t ++ u) := by
  intro pre post heq
  rcases List.append_eq_append_iff.mp heq with ⟨a, ha, hb⟩ | ⟨c, hc, hd⟩
  · exact hu a post hb
  · cases c with
    | nil =>
      simp at hd
      exact hu [] post (by simpa using hd.symm)
    | cons x c =>
      simp at hd
      obtain ⟨hx, hpost⟩ := hd
      subst hx
      obtain ⟨rest, hr, hs⟩ := ht pre c hc
      refine ⟨rest ++ u, ?_, starts_with_address_append _ _ hs⟩
      rw [hpost, hr]
      simp

theorem markers_followed_marker (t : List Char) (hs : starts_with_address t) (h : '*' ∉ t) :
    markers_followed (['*', '\n'] ++ t) := by
  intro pre post heq
  cases pre with
  | nil =>
    simp at heq
    exact ⟨t, heq.symm, hs⟩
  | cons x pre =>
    simp at heq
    obtain ⟨hx, heq⟩ := heq
    cases pre with
    | nil => simp at heq
    | cons y pre =>
      simp at heq
      obtain ⟨_, heq⟩ := heq
      exfalso
      apply h
      rw [heq]
      simp

theorem markers_followed_flatMap {α : Type} (l : List α) (f : α → List Char)
    (h : ∀ x ∈ l, markers_followed (f x)) : markers_followed (l.flatMap f) := by
  induction l with
  | nil => exact markers_followed_of_no_star _ (by simp)
  | cons a t ih =>
    rw [List.flatMap_cons]
    exact markers_followed_append _ _ (h a (List.mem_cons_self _ _))
      (ih (fun x hx => h x (List.mem_cons_of_mem _ hx)))

theorem address_field_starts (n : Nat) (u : List Char) :
    starts_with_address (scnprintf ADDRESS_WIDTH (fmt_07zx n) ++ u) := by
  apply starts_with_address_append
  have hl := fmt_07zx_length_ge n
  refine ⟨?_, ?_⟩
  · simp [scnprintf, ADDRESS_WIDTH]; omega
  · intro c hc
    have h1 := List.mem_of_mem_take hc
    have h2 := List.mem_of_mem_take h1
    exact fmt_07zx_isHexChar n c h2


theorem hex_cell_isLineChar (ptr : Mem) (t_len i j k : Nat) :
    ∀ c ∈ hex_cell ptr t_len i j k, isLineChar c = true := by
  intro c hc
  by_cases h : i + j + (BYTES_PER_GROUP - k) < t_len
  · rw [hex_cell_present _ _ _ _ _ h] at hc
    simp only [hex2, List.mem_cons, List.mem_singleton, List.not_mem_nil, or_false] at hc
    rcases hc with h | h <;> subst h <;> simp [isLineChar, hexDigit_isHexChar]
  · rw [hex_cell_absent _ _ _ _ _ h] at hc
    simp only [List.mem_cons, List.mem_singleton, List.not_mem_nil, or_false] at hc
    rcases hc with h | h <;> subst h <;> rfl

theorem hex_j_loop_isLineChar (ptr : Mem) (t_len i : Nat) :
    ∀ c ∈ hex_j_loop ptr t_len i BYTES_PER_ROW 0, isLineChar c = true := by
  intro c hc
  rw [hex_j_loop_eq, List.mem_flatMap] at hc
  obtain ⟨g, _, hg⟩ := hc
  simp only [BYTES_PER_GROUP, hex_k_loop, List.mem_cons, List.mem_append, List.not_mem_nil,
    or_false] at hg
  rcases hg with h | h | h
  · subst h; rfl
  · exact hex_cell_isLineChar _ _ _ _ _ c h
  · exact hex_cell_isLineChar _ _ _ _ _ c h

theorem address_field_isLineChar (n : Nat) :
    ∀ c ∈ scnprintf ADDRESS_WIDTH (fmt_07zx n), isLineChar c = true := by
  intro c hc
  have h := fmt_07zx_isHexChar n c (List.mem_of_mem_take hc)
  simp [isLineChar, h]

theorem row_text_no_star (ptr : Mem) (t_len i n : Nat) :
    '*' ∉ scnprintf ADDRESS_WIDTH (fmt_07zx n) ++ hex_j_loop ptr t_len i BYTES_PER_ROW 0
      ++ ['\n'] := by
  intro h
  have hc : isLineChar '*' = true := by
    rcases List.mem_append.mp h with h | h
    · rcases List.mem_append.mp h with h | h
      · exact address_field_isLineChar n _ h
      · exact hex_j_loop_isLineChar _ _ _ _ h
    · simp at h
  revert hc; decide

theorem render_step_markers_followed (ptr : Mem) (t_len off : Nat) (s : RowStep) :
    markers_followed (render_step ptr t_len off s) := by
  cases s with
  | repeated i => exact markers_followed_of_no_star _ (by simp [render_step])
  | emitted i m =>
    have hns := row_text_no_star ptr t_len i ((i + off) % SIZE_MOD)
    cases m with
    | false =>
      simp only [render_step, Bool.false_eq_true, if_false, List.nil_append]
      exact markers_followed_of_no_star _ hns
    | true =>
      have h := markers_followed_marker _
        (by
          rw [List.append_assoc]
          exact address_field_starts ((i + off) % SIZE_MOD)
            (hex_j_loop ptr t_len i BYTES_PER_ROW 0 ++ ['\n'])) hns
      simpa [render_step, scnprintf] using h

theorem hexdump_buffer_markers_followed (st : Formatter) (buf : Mem) (len off : Nat) :
    markers_followed (hexdump_buffer st buf len off).2 := by
  rw [hexdump_buffer_text]
  exact markers_followed_flatMap _ _ (fun s _ => render_step_markers_followed _ _ _ s)

theorem trailer_starts (total : Nat) :
    starts_with_address (scnprintf ADDRESS_WIDTH (fmt_07zx total ++ ['\n'])) := by
  have hl := fmt_07zx_length_ge total
  refine ⟨?_, ?_⟩
  · simp [scnprintf, ADDRESS_WIDTH]; omega
  · intro c hc
    simp only [scnprintf, ADDRESS_WIDTH, List.take_take] at hc
    rw [show min 7 (9 - 1) = 7 by decide, List.take_append_of_le_length hl] at hc
    exact fmt_07zx_isHexChar total c (List.mem_of_mem_take hc)

theorem hexdump_buffer_final_markers_followed (st : Formatter) (total : Nat) :
    markers_followed (hexdump_buffer_final st total).2 := by
  unfold hexdump_buffer_final
  cases h : st.repeated_lines with
  | false =>
    simp only [Bool.false_eq_true, if_false, List.nil_append]
    exact markers_followed_of_no_star _ (star_not_in_trailer total)
  | true =>
    have := markers_followed_marker _ (trailer_starts total) (star_not_in_trailer total)
    simpa [scnprintf] using this

/-- What the writes append to the output file has every marker followed by a row line. -/
theorem run_writes_markers_followed :
    ∀ (ws : List WriteReq) (d : Driver) (off : Nat),
      ∃ t, (run_writes d off ws).1.output_file = d.output_file ++ t ∧ markers_followed t := by
  intro ws
  induction ws with
  | nil =>
    intro d off
    exact ⟨[], by simp [run_writes], markers_followed_of_no_star _ (by simp)⟩
  | cons w rest ih =>
    intro d off
    simp only [run_writes]
    obtain ⟨t, ht, hm⟩ := ih (loop_write d off w).1 (loop_write d off w).2.1
    have hw : ∃ u, (loop_write d off w).1.output_file = d.output_file ++ u
        ∧ markers_followed u := by
      unfold loop_write
      by_cases h0 : w.data.length = 0
      · exact ⟨[], by simp [h0], markers_followed_of_no_star _ (by simp)⟩
      · by_cases h1 : w.kmalloc_kernel_buffer = true
        · by_cases h2 : w.kmalloc_hexbuf = true
          · by_cases h3 : w.copy_from_user = 0
            · exact ⟨(hexdump_buffer d.fmt (kernel_buffer w) w.data.length off).2,
                by simp [h0, h1, h2, h3], hexdump_buffer_markers_followed _ _ _ _⟩
            · exact ⟨[], by simp [h0, h1, h2, h3], markers_followed_of_no_star _ (by simp)⟩
          · exact ⟨[], by simp [h0, h1, h2], markers_followed_of_no_star _ (by simp)⟩
        · exact ⟨[], by simp [h0, h1], markers_followed_of_no_star _ (by simp)⟩
    obtain ⟨u, hu, hmu⟩ := hw
    exact ⟨u ++ t, by rw [ht, hu, List.append_assoc], markers_followed_append _ _ hmu hm⟩

theorem session_markers_followed (d : Driver) (ws : List WriteReq) :
    markers_followed (session d ws).output_file := by
  unfold session
  obtain ⟨t, ht, hm⟩ := run_writes_markers_followed ws (loop_open d none).1 0
  simp only [loop_release, Bool.not_true, Bool.false_eq_true, if_false, ht]
  simp only [loop_open, List.nil_append]
  exact markers_followed_append _ _ hm (hexdump_buffer_final_markers_followed _ _)

theorem step_lines_address (ptr : Mem) (t_len off : Nat) (s : RowStep) :
    ∀ l ∈ step_lines ptr t_len off s, ∀ a, l.1 = some a →
      ∃ u, l.2 = scnprintf ADDRESS_WIDTH (fmt_07zx a) ++ u := by
  intro l hl a ha
  cases s with
  | repeated i => simp [step_lines] at hl
  | emitted i m =>
    simp only [step_lines, List.mem_append, List.mem_singleton] at hl
    rcases hl with h | h
    · cases m <;> simp at h
      subst h
      simp at ha
    · subst h
      simp only [Option.some.injEq] at ha
      subst ha
      exact ⟨_, List.append_assoc _ _ _⟩

theorem run_lines_address :
    ∀ (ws : List WriteReq) (d : Driver) (off : Nat),
      ∀ l ∈ run_lines d off ws, ∀ a, l.1 = some a →
        ∃ u, l.2 = scnprintf ADDRESS_WIDTH (fmt_07zx a) ++ u := by
  intro ws
  induction ws with
  | nil => intro d off l hl; simp [run_lines] at hl
  | cons w rest ih =>
    intro d off l hl a ha
    simp only [run_lines, List.mem_append] at hl
    rcases hl with h | h
    · unfold write_lines at h
      split at h
      · rw [List.mem_flatMap] at h
        obtain ⟨s, _, hs⟩ := h
        exact step_lines_address _ _ _ s l hs a ha
      · simp at h
    · exact ih _ _ l h a ha

/-- On a chunk of whole rows, at any offset, the row loop is the fold of `whole_row_step`. -/
theorem hexdump_loop_whole_rows (chunk : List Byte) (heap : Mem) (off : Nat) :
    ∀ (n r fuel : Nat) (st : Formatter) (hexbuf : List Char),
      16 * (r + n) = chunk.length → n ≤ fuel →
      hexdump_loop (mem_of chunk heap) chunk.length off fuel (16 * r) st hexbuf
        = (List.range' r n).foldl (whole_row_step chunk off) (st, hexbuf) := by
  intro n
  induction n with
  | zero =>
    intro r fuel st hexbuf hr _
    rw [hexdump_loop_done _ _ _ _ _ _ _ (by omega)]
    rfl
  | succ n ih =>
    intro r fuel st hexbuf hr hf
    obtain ⟨f, rfl⟩ : ∃ f, fuel = f + 1 := ⟨fuel - 1, by omega⟩
    have hrow := row_at_mem_of chunk heap r (by omega)
    have hi : 16 * r < chunk.length := by omega
    rw [List.range'_succ, List.foldl_cons]
    unfold hexdump_loop
    rw [if_pos hi]
    simp only [BYTES_PER_ROW]
    rw [show 16 * r + 16 = 16 * (r + 1) by ring]
    by_cases hq : chunk_row chunk r = st.prev_line
    · have hm : memcmp st.prev_line (mem_of chunk heap) (16 * r) = 0 := by
        simp [memcmp, hrow, hq]
      rw [if_pos hm, ih (r + 1) f _ hexbuf (by omega) (by omega)]
      simp [whole_row_step, hq]
    · have hm : ¬ memcmp st.prev_line (mem_of chunk heap) (16 * r) = 0 := by
        simp [memcmp, hrow]; intro h; exact hq h.symm
      rw [if_neg hm, ih (r + 1) f _ _ (by omega) (by omega)]
      congr 1
      simp only [whole_row_step, if_neg hq, hrow, whole_row_line]
      rw [hex_j_loop_full _ _ _ (by omega), hrow]
      cases st.repeated_lines <;> simp [scnprintf]

theorem hexdump_buffer_eq_whole_rows_dump (st : Formatter) (chunk : List Byte) (heap : Mem)
    (off : Nat) (hlen : chunk.length % 16 = 0) :
    hexdump_buffer st (mem_of chunk heap) chunk.length off = whole_rows_dump st chunk off := by
  unfold hexdump_buffer whole_rows_dump
  rw [padded_len_aligned _ hlen, List.range_eq_range']
  have h := hexdump_loop_whole_rows chunk heap off (chunk.length / 16) 0 chunk.length st []
    (by omega) (by omega)
  simpa using h

theorem foldl_congr_mem {α β : Type} (l : List α) (f g : β → α → β)
    (h : ∀ x ∈ l, ∀ acc, f acc x = g acc x) : ∀ init, l.foldl f init = l.foldl g init := by
  induction l with
  | nil => intro init; rfl
  | cons a t ih =>
    intro init
    simp only [List.foldl_cons]
    rw [h a (List.mem_cons_self _ _), ih (fun x hx => h x (List.mem_cons_of_mem _ hx))]

/-- The text already written is carried through the fold unchanged. -/
theorem whole_rows_fold_text (chunk : List Byte) (off : Nat) (l : List Nat) :
    ∀ (st : Formatter) (out : List Char),
      l.foldl (whole_row_step chunk off) (st, out)
        = ((l.foldl (whole_row_step chunk off) (st, [])).1,
            out ++ (l.foldl (whole_row_step chunk off) (st, [])).2) := by
  induction l with
  | nil => intro st out; simp
  | cons r t ih =>
    intro st out
    simp only [List.foldl_cons]
    by_cases hq : chunk_row chunk r = st.prev_line
    · simp only [whole_row_step, if_pos hq]
      exact ih _ out
    · simp only [whole_row_step, if_neg hq]
      rw [ih _ (out ++ _ ++ _), ih _ ([] ++ _ ++ _)]
      simp

/-- Dumping `a ++ b` is dumping `a`, then `b` at the offset advanced by the length of `a`. -/
theorem whole_rows_dump_append (st : Formatter) (a b : List Byte) (off : Nat)
    (ha : a.length % 16 = 0) :
    whole_rows_dump st (a ++ b) off
      = ((whole_rows_dump (whole_rows_dump st a off).1 b (off + a.length)).1,
          (whole_rows_dump st a off).2
            ++ (whole_rows_dump (whole_rows_dump st a off).1 b (off + a.length)).2) := by
  obtain ⟨m, hm⟩ : ∃ m, a.length = 16 * m := ⟨a.length / 16, by omega⟩
  unfold whole_rows_dump
  have hk : (a ++ b).length / 16 = a.length / 16 + b.length / 16 := by
    rw [List.length_append, hm]; omega
  rw [hk, List.range_add, List.foldl_append, List.foldl_map]
  have h1 : (List.range (a.length / 16)).foldl (whole_row_step (a ++ b) off) (st, [])
      = (List.range (a.length / 16)).foldl (whole_row_step a off) (st, []) := by
    apply foldl_congr_mem
    intro r hr acc
    rw [List.mem_range] at hr
    simp only [whole_row_step, chunk_row_append_left a b r (by omega)]
  have h2 : ∀ init, (List.range (b.length / 16)).foldl
        (fun acc q => whole_row_step (a ++ b) off acc (a.length / 16 + q)) init
      = (List.range (b.length / 16)).foldl (whole_row_step b (off + a.length)) init := by
    apply foldl_congr_mem
    intro q _ acc
    have hq : a.length / 16 + q = m + q := by omega
    simp only [whole_row_step, hq, chunk_row_append_right a b m q hm]
    rw [show 16 * (m + q) + off = 16 * q + (off + a.length) by omega]
  rw [h1, h2]
  exact whole_rows_fold_text b (off + a.length) _ _ _


theorem whole_rows_dump_mod (st : Formatter) (chunk : List Byte) (off : Nat) :
    whole_rows_dump st chunk (off % SIZE_MOD) = whole_rows_dump st chunk off := by
  unfold whole_rows_dump
  apply foldl_congr_mem
  intro r _ acc
  simp only [whole_row_step, whole_row_line, Nat.add_mod_mod]

/-- Writes of whole rows leave the state, and append the text, of one dump of the concatenated
stream at the starting position. -/
theorem run_writes_whole_rows :
    ∀ (ws : List WriteReq) (d : Driver) (off : Nat), whole_row_writes ws →
      (run_writes d off ws).1.fmt = (whole_rows_dump d.fmt (ws.flatMap (·.data)) off).1
      ∧ (run_writes d off ws).1.output_file
          = d.output_file ++ (whole_rows_dump d.fmt (ws.flatMap (·.data)) off).2
      ∧ (run_writes d off ws).1.input_file_size
          = (if (ws.flatMap (·.data)).length = 0 then d.input_file_size
             else (d.input_file_size + (ws.flatMap (·.data)).length) % SIZE_MOD) := by
  intro ws
  induction ws with
  | nil => intro d off _; simp [run_writes, whole_rows_dump]
  | cons w rest ih =>
    intro d off hws
    obtain ⟨hsucc, hpos, hal⟩ := hws w (List.mem_cons_self _ _)
    have hrest : whole_row_writes rest := fun x hx => hws x (List.mem_cons_of_mem _ hx)
    simp only [run_writes, List.flatMap_cons]
    rw [loop_write_ok d off w hsucc hpos, hexdump_buffer_eq_whole_rows_dump _ _ _ _ hal]
    obtain ⟨h1, h2, h3⟩ := ih
      { fmt := (whole_rows_dump d.fmt w.data off).1,
        input_file_size := (d.input_file_size + w.data.length) % SIZE_MOD,
        output_file := d.output_file ++ (whole_rows_dump d.fmt w.data off).2 }
      ((off + w.data.length) % SIZE_MOD) hrest
    simp only at h1 h2 h3
    rw [whole_rows_dump_mod] at h1 h2
    have happ := whole_rows_dump_append d.fmt w.data (rest.flatMap (·.data)) off hal
    refine ⟨?_, ?_, ?_⟩
    · rw [h1, happ]
    · rw [h2, happ, List.append_assoc]
    · have hne : ¬ (w.data.length + (rest.flatMap (·.data)).length = 0) := by omega
      rw [h3, List.length_append, if_neg hne]
      by_cases h0 : (rest.flatMap (·.data)).length = 0
      · rw [if_pos h0, h0, Nat.add_zero]
      · rw [if_neg h0, Nat.mod_add_mod, Nat.add_assoc]

/-- Past `2^32` the fields written no longer follow the addresses: two rows dumped at the
position `2^32 - 16` show `fffffff0` and then `10000000`, which reads back as `2^28`. -/
theorem shown_addresses_past_four_gib :
    (hexdump_buffer Formatter.init
        (mem_of (List.replicate 16 0x41 ++ List.replicate 16 0x42) (fun _ => 0)) 32
        (2 ^ 32 - 16)).2
      = ("fffffff0 4141 4141 4141 4141 4141 4141 4141 4141\n"
          ++ "10000000 4242 4242 4242 4242 4242 4242 4242 4242\n").toList
    ∧ shown_row_addresses (hexdump_buffer Formatter.init
        (mem_of (List.replicate 16 0x41 ++ List.replicate 16 0x42) (fun _ => 0)) 32
        (2 ^ 32 - 16)).2 = [2 ^ 32 - 16, 2 ^ 28] := by
  decide

/-! ## Claims -/

/-- C1: on a chunk whose length is a positive multiple of 16, dumped at a base offset with
`off + len < 2^28`, `hexdump_buffer` returns the text and the state of the left fold of
`spec_row_step` over the rows `0 .. len/16 - 1` (a row equal to `previous_row` only sets the
pending flag; any other row emits the marker if one is pending, then its row line, and becomes
`previous_row`), and the returned count is the length of the text of that fold. -/
theorem hexdump_buffer_whole_rows (st : Formatter) (chunk : List Byte) (heap : Mem) (off : Nat)
    (_hpos : 0 < chunk.length) (hlen : chunk.length % 16 = 0)
    (hoff : off + chunk.length < 2 ^ 28) :
    hexdump_buffer st (mem_of chunk heap) chunk.length off = spec_hexdump st chunk off
      ∧ (hexdump_buffer st (mem_of chunk heap) chunk.length off).2.length
          = (spec_hexdump st chunk off).2.length := by
  have h := hexdump_buffer_aligned st chunk heap off hlen (by omega)
  exact ⟨h, by rw [h]⟩

theorem hexdump_buffer_whole_rows_witness :
    hexdump_buffer Formatter.init
        (mem_of (List.replicate 16 0x41 ++ List.replicate 16 0x41 ++ List.replicate 16 0x42)
          (fun _ => 0)) 48 0x100
      = spec_hexdump Formatter.init
        (List.replicate 16 0x41 ++ List.replicate 16 0x41 ++ List.replicate 16 0x42) 0x100 :=
  (hexdump_buffer_whole_rows Formatter.init
    (List.replicate 16 0x41 ++ List.replicate 16 0x41 ++ List.replicate 16 0x42)
    (fun _ => 0) 0x100 (by decide) (by decide) (by decide)).1

/-- C2: for a 16-byte chunk `b` that differs from `previous_row`, with no repeat pending and
base offset `off < 2^28`, `hexdump_buffer` returns exactly 48 characters: the seven lowercase
hexadecimal digits of `off`, then for each group `g = 0..7` a space, the two digits of
`b[2g+1]` and the two digits of `b[2g]`, then a newline. -/
theorem hexdump_buffer_row_line (st : Formatter) (b : List Byte) (heap : Mem) (off : Nat)
    (hlen : b.length = 16) (hdiff : b ≠ st.prev_line) (hpending : st.repeated_lines = false)
    (hoff : off < 2 ^ 28) :
    (hexdump_buffer st (mem_of b heap) 16 off).2
        = [hexDigit (off / 16 ^ 6 % 16), hexDigit (off / 16 ^ 5 % 16),
            hexDigit (off / 16 ^ 4 % 16), hexDigit (off / 16 ^ 3 % 16),
            hexDigit (off / 16 ^ 2 % 16), hexDigit (off / 16 % 16), hexDigit (off % 16)]
          ++ (List.range 8).flatMap (fun g =>
              [' ', hexDigit ((b.getD (2 * g + 1) 0).val / 16),
                hexDigit ((b.getD (2 * g + 1) 0).val % 16),
                hexDigit ((b.getD (2 * g) 0).val / 16), hexDigit ((b.getD (2 * g) 0).val % 16)])
          ++ ['\n']
      ∧ (hexdump_buffer st (mem_of b heap) 16 off).2.length = 48 := by
  have h := hexdump_buffer_aligned st b heap off (by omega) (by omega)
  rw [hlen] at h
  have e8 : List.range 8 = [0,1,2,3,4,5,6,7] := by decide
  rw [h, spec_hexdump_one_row st b off hlen]
  simp only [spec_row_step, chunk_row_zero b hlen, if_neg hdiff, hpending]
  constructor
  · simp [spec_row_line, fixedHex, spec_group, hex2, e8, Nat.div_div_eq_div_mul]
  · simp [spec_row_line, fixedHex, spec_group, hex2, e8]

theorem hexdump_buffer_row_line_witness :
    (hexdump_buffer Formatter.init (mem_of (List.replicate 16 0x41) (fun _ => 0)) 16 0x1234).2
      = "0001234 4141 4141 4141 4141 4141 4141 4141 4141\n".toList := by
  have h := (hexdump_buffer_row_line Formatter.init (List.replicate 16 0x41) (fun _ => 0) 0x1234
    (by decide) (by decide) (by decide) (by decide)).1
  rw [h]
  decide

/-- C3: at `total_bytes = 2^28` the trailer is the eight characters `10000000` with no
newline, and at `2^32 + 1` (nine digits `100000001`) the last digit is dropped as well: the
size `ADDRESS_WIDTH = 9` given to `scnprintf` keeps eight characters. One below `2^28` the
trailer is still complete. -/
theorem hexdump_buffer_final_truncates :
    (hexdump_buffer_final Formatter.init (2 ^ 28)).2 = "10000000".toList
      ∧ (hexdump_buffer_final Formatter.init (2 ^ 32 + 1)).2 = "10000000".toList
      ∧ (hexdump_buffer_final Formatter.init (2 ^ 28 - 1)).2 = "fffffff\n".toList := by
  decide

/-- C4: a close whose allocation succeeds appends, when a repeat is pending, the marker line
followed by the trailer, and leaves the flag clear; when no repeat is pending it appends the
trailer alone, which holds no `*`. The trailer is what `scnprintf` keeps of the address and
newline; below `2^28` that is the seven digits of the total and the newline. -/
theorem loop_release_marker (d : Driver) :
    (d.fmt.repeated_lines = true →
      (loop_release d true).1.output_file
          = d.output_file ++ ['*', '\n']
              ++ scnprintf ADDRESS_WIDTH (fmt_07zx d.input_file_size ++ ['\n'])
        ∧ (loop_release d true).1.fmt.repeated_lines = false)
    ∧ (d.fmt.repeated_lines = false →
      (loop_release d true).1.output_file
          = d.output_file ++ scnprintf ADDRESS_WIDTH (fmt_07zx d.input_file_size ++ ['\n'])
        ∧ '*' ∉ scnprintf ADDRESS_WIDTH (fmt_07zx d.input_file_size ++ ['\n'])
        ∧ (loop_release d true).1.fmt.repeated_lines = false)
    ∧ (d.input_file_size < 2 ^ 28 →
        scnprintf ADDRESS_WIDTH (fmt_07zx d.input_file_size ++ ['\n'])
          = fixedHex 7 d.input_file_size ++ ['\n']) := by
  refine ⟨?_, ?_, ?_⟩
  · intro h
    simp [loop_release, hexdump_buffer_final, h, scnprintf]
  · intro h
    refine ⟨?_, star_not_in_trailer _, ?_⟩
    · simp [loop_release, hexdump_buffer_final, h]
    · simp [loop_release, hexdump_buffer_final, h]
  · intro h
    rw [fmt_07zx_eq _ h]
    simp [scnprintf, ADDRESS_WIDTH, fixedHex_length, List.take_of_length_le]

theorem loop_release_marker_witness :
    (loop_release (sample_driver true 32) true).1.output_file
        = [] ++ ['*', '\n'] ++ scnprintf ADDRESS_WIDTH (fmt_07zx 32 ++ ['\n'])
      ∧ '*' ∉ scnprintf ADDRESS_WIDTH (fmt_07zx 32 ++ ['\n'])
      ∧ scnprintf ADDRESS_WIDTH (fmt_07zx 32 ++ ['\n']) = fixedHex 7 32 ++ ['\n'] :=
  ⟨((loop_release_marker (sample_driver true 32)).1 rfl).1,
   ((loop_release_marker (sample_driver false 32)).2.1 rfl).2.1,
   (loop_release_marker (sample_driver false 32)).2.2 (by decide)⟩

/-- C5 (amended): in a session opened on the initial formatter state, for writes that all
succeed, whose lengths are positive multiples of 16 and sum to `S < 2^28`, whose first row is
not sixteen zero bytes and none of whose rows equals the row before it, the transcript is the
`S / 16` row lines with addresses `0, 16, 32, ...` in order followed by the trailer line of
`S` in seven hexadecimal digits, and it holds no `*`. -/
theorem session_no_repeat_transcript (ws : List WriteReq)
    (hws : ∀ w ∈ ws, w.succeeds ∧ 0 < w.data.length ∧ w.data.length % 16 = 0)
    (hS : (ws.flatMap (·.data)).length < 2 ^ 28)
    (hfirst : chunk_row (ws.flatMap (·.data)) 0 ≠ List.replicate 16 0)
    (hcons : ∀ q, q + 1 < (ws.flatMap (·.data)).length / 16 →
      chunk_row (ws.flatMap (·.data)) (q + 1) ≠ chunk_row (ws.flatMap (·.data)) q) :
    (session Driver.init ws).output_file
        = spec_row_lines (ws.flatMap (·.data)) 0 ((ws.flatMap (·.data)).length / 16)
          ++ fixedHex 7 (ws.flatMap (·.data)).length ++ ['\n']
      ∧ '*' ∉ (session Driver.init ws).output_file := by
  have hnr : no_repeated_row (List.replicate 16 0) (ws.flatMap (·.data)) := by
    intro q hq
    by_cases hq0 : q = 0
    · subst hq0; simpa using hfirst
    · rw [if_neg hq0]
      have := hcons (q - 1) (by omega)
      rwa [show q - 1 + 1 = q by omega] at this
  have hrun := run_writes_no_repeat ws (loop_open Driver.init none).1 0 (List.replicate 16 0)
    hws rfl (by omega) (by simp only [loop_open, Driver.init]; omega) hnr
  have hout : (session Driver.init ws).output_file
        = spec_row_lines (ws.flatMap (·.data)) 0 ((ws.flatMap (·.data)).length / 16)
          ++ fixedHex 7 (ws.flatMap (·.data)).length ++ ['\n'] := by
    unfold session
    rw [hrun]
    simp only [loop_release]
    rw [hexdump_buffer_final_small _ _ (by simp only [loop_open, Driver.init]; omega)]
    simp [loop_open, Driver.init]
  refine ⟨hout, ?_⟩
  rw [hout]
  intro h
  have hc : isLineChar '*' = true := by
    rcases List.mem_append.mp h with h | h
    · rcases List.mem_append.mp h with h | h
      · exact spec_row_lines_isLineChar _ _ _ _ h
      · exact fixedHex_isLineChar _ _ _ h
    · simp at h
  revert hc; decide

theorem session_no_repeat_transcript_witness :
    (session Driver.init
        [WriteReq.ok (List.replicate 16 0x41),
         WriteReq.ok (List.replicate 16 0x42 ++ List.replicate 16 0x43)]).output_file
      = ("0000000 4141 4141 4141 4141 4141 4141 4141 4141\n"
          ++ "0000010 4242 4242 4242 4242 4242 4242 4242 4242\n"
          ++ "0000020 4343 4343 4343 4343 4343 4343 4343 4343\n"
          ++ "0000030\n").toList := by
  have h := (session_no_repeat_transcript
    [WriteReq.ok (List.replicate 16 0x41),
     WriteReq.ok (List.replicate 16 0x42 ++ List.replicate 16 0x43)]
    (by
      intro w hw
      simp only [List.mem_cons, List.mem_singleton, List.not_mem_nil, or_false] at hw
      rcases hw with rfl | rfl <;> exact ⟨⟨rfl, rfl, rfl⟩, by decide, by decide⟩)
    (by decide) (by decide)
    (by
      intro q hq
      have hq2 : q < 2 := by
        have : ([WriteReq.ok (List.replicate 16 0x41),
            WriteReq.ok (List.replicate 16 0x42 ++ List.replicate 16 0x43)].flatMap
              (·.data)).length = 48 := by
          decide
        omega
      interval_cases q <;> decide)).1
  rw [h]
  decide

/-- C5 fails as stated, at two inputs. A first write of sixteen zero bytes equals the initial
`prev_line`: the transcript is the marker and the trailer, with no row line. Two writes of
eight bytes give two row lines, at addresses 0 and 8, where the stream has a single row. In
both cases the transcript differs from the one row line and trailer the claim describes. -/
theorem session_repeat_free_counterexample :
    ((session Driver.init [WriteReq.ok (List.replicate 16 0)]).output_file
        = "*\n0000010\n".toList
      ∧ (session Driver.init [WriteReq.ok (List.replicate 16 0)]).output_file
        ≠ spec_row_lines (List.replicate 16 0) 0 ((16 + 15) / 16) ++ fixedHex 7 16 ++ ['\n'])
    ∧ ((session Driver.init
          [WriteReq.ok [1, 2, 3, 4, 5, 6, 7, 8],
           WriteReq.ok [9, 10, 11, 12, 13, 14, 15, 16]]).output_file
        = ("0000000 0201 0403 0605 0807                    \n"
            ++ "0000008 0a09 0c0b 0e0d 100f                    \n"
            ++ "0000010\n").toList
      ∧ (session Driver.init
          [WriteReq.ok [1, 2, 3, 4, 5, 6, 7, 8],
           WriteReq.ok [9, 10, 11, 12, 13, 14, 15, 16]]).output_file
        ≠ spec_row_lines [1, 2, 3, 4, 5, 6, 7, 8, 9, 10, 11, 12, 13, 14, 15, 16] 0
            ((16 + 15) / 16) ++ fixedHex 7 16 ++ ['\n']) := by
  decide

/-- C6: from a freshly opened session (position 0, byte count 0, no repeat pending) whose
`previous_row` differs from the 16-byte row `P`, writing `P`, then `P` again, then a 16-byte
row `Q` different from `P`, then closing, gives exactly: the row line of `P` at `0000000`, one
marker line, the row line of `Q` at `0000020`, the trailer `0000030`; and the transcript is the
same when the two copies of `P` arrive in one 32-byte write. -/
theorem repeat_collapse_across_calls (d : Driver) (P Q : List Byte) (w1 w2 w3 w12 : WriteReq)
    (hP : P.length = 16) (hQ : Q.length = 16)
    (hPprev : P ≠ d.fmt.prev_line) (hQP : Q ≠ P)
    (hpending : d.fmt.repeated_lines = false) (htotal : d.input_file_size = 0)
    (h1 : w1.succeeds ∧ w1.data = P) (h2 : w2.succeeds ∧ w2.data = P)
    (h3 : w3.succeeds ∧ w3.data = Q) (h12 : w12.succeeds ∧ w12.data = P ++ P) :
    (session d [w1, w2, w3]).output_file
        = "0000000".toList ++ (List.range 8).flatMap (spec_group P) ++ "\n*\n".toList
          ++ "0000020".toList ++ (List.range 8).flatMap (spec_group Q) ++ "\n".toList
          ++ "0000030\n".toList
      ∧ (session d [w12, w3]).output_file = (session d [w1, w2, w3]).output_file := by
  obtain ⟨hs1, hd1⟩ := h1
  obtain ⟨hs2, hd2⟩ := h2
  obtain ⟨hs3, hd3⟩ := h3
  obtain ⟨hs12, hd12⟩ := h12
  obtain ⟨⟨p, b⟩, total, out⟩ := d
  simp only at hPprev hpending htotal
  subst hpending htotal
  have hl12 : w12.data.length = 32 := by rw [hd12, List.length_append, hP]
  have a0 : fixedHex 7 0 = "0000000".toList := by decide
  have a2 : fixedHex 7 32 = "0000020".toList := by decide
  have a3 : fixedHex 7 48 = "0000030".toList := by decide
  have m16 : (0 + 16) % SIZE_MOD = 16 := by decide
  have m32 : (16 + 16) % SIZE_MOD = 32 := by decide
  have m32' : (0 + 32) % SIZE_MOD = 32 := by decide
  have m48 : (32 + 16) % SIZE_MOD = 48 := by decide
  have split : (session ⟨⟨p, false⟩, 0, out⟩ [w1, w2, w3]).output_file
        = "0000000".toList ++ (List.range 8).flatMap (spec_group P) ++ "\n*\n".toList
          ++ "0000020".toList ++ (List.range 8).flatMap (spec_group Q) ++ "\n".toList
          ++ "0000030\n".toList := by
    simp only [session, run_writes, loop_open]
    rw [loop_write_aligned _ _ w1 hs1 (by simp [hd1, hP]) (by simp [hd1, hP])
      (by simp [hd1, hP])]
    simp only [hd1, hP, spec_hexdump_new_row p P false 0 hP hPprev, m16]
    rw [loop_write_aligned _ _ w2 hs2 (by simp [hd2, hP]) (by simp [hd2, hP])
      (by simp [hd2, hP])]
    simp only [hd2, hP, spec_hexdump_same_row P false 16 hP, m32]
    rw [loop_write_aligned _ _ w3 hs3 (by simp [hd3, hQ]) (by simp [hd3, hQ])
      (by simp [hd3, hQ])]
    simp only [hd3, hQ, spec_hexdump_new_row P Q true 32 hQ hQP, m48, loop_release]
    rw [hexdump_buffer_final_small _ _ (by decide)]
    simp [spec_row_line, a0, a2, a3]
  refine ⟨split, ?_⟩
  rw [split]
  simp only [session, run_writes, loop_open]
  rw [loop_write_aligned _ _ w12 hs12 (by omega) (by omega) (by omega)]
  simp only [hd12, List.length_append, hP, spec_hexdump_new_row_twice p P false 0 hP hPprev, m32']
  rw [loop_write_aligned _ _ w3 hs3 (by simp [hd3, hQ]) (by simp [hd3, hQ])
    (by simp [hd3, hQ])]
  simp only [hd3, hQ, spec_hexdump_new_row P Q true 32 hQ hQP, m48, loop_release]
  rw [hexdump_buffer_final_small _ _ (by decide)]
  simp [spec_row_line, a0, a2, a3]

theorem repeat_collapse_across_calls_witness :
    (session Driver.init
        [WriteReq.ok (List.replicate 16 0x41), WriteReq.ok (List.replicate 16 0x41),
         WriteReq.ok (List.replicate 16 0x42)]).output_file
        = "0000000".toList ++ (List.range 8).flatMap (spec_group (List.replicate 16 0x41))
          ++ "\n*\n".toList
          ++ "0000020".toList ++ (List.range 8).flatMap (spec_group (List.replicate 16 0x42))
          ++ "\n".toList ++ "0000030\n".toList
      ∧ (session Driver.init
          [WriteReq.ok (List.replicate 16 0x41 ++ List.replicate 16 0x41),
           WriteReq.ok (List.replicate 16 0x42)]).output_file
        = (session Driver.init
            [WriteReq.ok (List.replicate 16 0x41), WriteReq.ok (List.replicate 16 0x41),
             WriteReq.ok (List.replicate 16 0x42)]).output_file :=
  repeat_collapse_across_calls Driver.init (List.replicate 16 0x41) (List.replicate 16 0x42)
    (WriteReq.ok (List.replicate 16 0x41)) (WriteReq.ok (List.replicate 16 0x41))
    (WriteReq.ok (List.replicate 16 0x42))
    (WriteReq.ok (List.replicate 16 0x41 ++ List.replicate 16 0x41))
    (by decide) (by decide) (by decide) (by decide) rfl rfl
    ⟨⟨rfl, rfl, rfl⟩, rfl⟩ ⟨⟨rfl, rfl, rfl⟩, rfl⟩ ⟨⟨rfl, rfl, rfl⟩, rfl⟩ ⟨⟨rfl, rfl, rfl⟩, rfl⟩

/-- C7 fails as stated: when the write of 32 bytes `0x41` returns, the output file does not
hold the marker line, and the close does not append the trailer alone. -/
theorem scenario_a_marker_not_in_write_output :
    (run_writes (loop_open Driver.init none).1 0
        [WriteReq.ok (List.replicate 32 0x41)]).1.output_file
      ≠ "0000000 4141 4141 4141 4141 4141 4141 4141 4141\n*\n".toList
    ∧ (loop_release (run_writes (loop_open Driver.init none).1 0
        [WriteReq.ok (List.replicate 32 0x41)]).1 true).1.output_file
      ≠ (run_writes (loop_open Driver.init none).1 0
          [WriteReq.ok (List.replicate 32 0x41)]).1.output_file ++ "0000020\n".toList := by
  decide

/-- C7 (amended): in a session opened on the initial formatter state, when the write of 32
bytes `0x41` returns the output file holds the row line alone and the repeat is pending; the
close appends the marker line and the trailer `0000020`, so that the whole transcript is the
row line, the marker line and the trailer. -/
theorem scenario_a_marker_written_at_close :
    (run_writes (loop_open Driver.init none).1 0
        [WriteReq.ok (List.replicate 32 0x41)]).1.output_file
      = "0000000 4141 4141 4141 4141 4141 4141 4141 4141\n".toList
    ∧ (run_writes (loop_open Driver.init none).1 0
        [WriteReq.ok (List.replicate 32 0x41)]).1.fmt.repeated_lines = true
    ∧ (loop_release (run_writes (loop_open Driver.init none).1 0
        [WriteReq.ok (List.replicate 32 0x41)]).1 true).1.output_file
      = (run_writes (loop_open Driver.init none).1 0
          [WriteReq.ok (List.replicate 32 0x41)]).1.output_file ++ "*\n0000020\n".toList
    ∧ (session Driver.init [WriteReq.ok (List.replicate 32 0x41)]).output_file
      = "0000000 4141 4141 4141 4141 4141 4141 4141 4141\n*\n0000020\n".toList := by
  decide

/-- C8: for the 5-byte chunk `01 02 03 04 05` the third group is rendered from the byte at
index 5, one past the chunk, followed by the byte `05`: with `0xaa` stored there the line shows
`aa05`, with `0x00` it shows `0005`. Only the ten positions `6 .. 15` are blank. -/
theorem odd_length_renders_byte_past_chunk :
    (hexdump_buffer Formatter.init (mem_of [1, 2, 3, 4, 5] (fun _ => 0xaa)) 5 0).2
      = "0000000 0201 0403 aa05                         \n".toList
    ∧ (hexdump_buffer Formatter.init (mem_of [1, 2, 3, 4, 5] (fun _ => 0)) 5 0).2
      = "0000000 0201 0403 0005                         \n".toList := by
  decide

/-- C9: a 1-byte write on the initial state makes `hexdump_buffer` return 48, where `hexbuf`
has `3 * 1 + 1 = 4` bytes; and after a write of sixteen zero bytes has left a repeat pending, a
write of sixteen bytes `0x41` makes it return 50, where `hexbuf` has `3 * 16 + 1 = 49` bytes. -/
theorem hexbuf_too_small :
    ((hexdump_buffer Formatter.init (mem_of [1] (fun _ => 0)) 1 0).2.length = 48
      ∧ 3 * 1 + 1 < (hexdump_buffer Formatter.init (mem_of [1] (fun _ => 0)) 1 0).2.length)
    ∧ ((hexdump_buffer Formatter.init (mem_of (List.replicate 16 0) (fun _ => 0)) 16 0).1
        = { prev_line := List.replicate 16 0, repeated_lines := true }
      ∧ (hexdump_buffer { prev_line := List.replicate 16 0, repeated_lines := true }
          (mem_of (List.replicate 16 0x41) (fun _ => 0)) 16 16).2.length = 50
      ∧ 3 * 16 + 1 < (hexdump_buffer { prev_line := List.replicate 16 0, repeated_lines := true }
          (mem_of (List.replicate 16 0x41) (fun _ => 0)) 16 16).2.length) := by
  decide

/-- C10: from a state with byte count 0 and a file position 0, after any sequence of write
calls, every call has returned either its length or a negative error code, and the file
position and `input_file_size` both equal the sum of the lengths of the accepted calls
(reduced modulo `2^64`, hence the sum itself while it is below `2^64`); when that sum is below
`2^28` the close writes, after the marker line if one is pending, the seven hexadecimal digits
of the sum and a newline. -/
theorem counters_follow_accepted_lengths (d : Driver) (ws : List WriteReq)
    (htotal : d.input_file_size = 0) :
    List.Forall₂ (fun w ret => ret = (w.data.length : Int) ∨ ret < 0) ws (run_writes d 0 ws).2.2
    ∧ (run_writes d 0 ws).2.1 = accepted_bytes ws (run_writes d 0 ws).2.2 % SIZE_MOD
    ∧ (run_writes d 0 ws).1.input_file_size
        = accepted_bytes ws (run_writes d 0 ws).2.2 % SIZE_MOD
    ∧ (accepted_bytes ws (run_writes d 0 ws).2.2 < SIZE_MOD →
        (run_writes d 0 ws).2.1 = accepted_bytes ws (run_writes d 0 ws).2.2
        ∧ (run_writes d 0 ws).1.input_file_size = accepted_bytes ws (run_writes d 0 ws).2.2)
    ∧ (accepted_bytes ws (run_writes d 0 ws).2.2 < 2 ^ 28 →
        (loop_release (run_writes d 0 ws).1 true).1.output_file
          = (run_writes d 0 ws).1.output_file
            ++ (if (run_writes d 0 ws).1.fmt.repeated_lines then ['*', '\n'] else [])
            ++ fixedHex 7 (accepted_bytes ws (run_writes d 0 ws).2.2) ++ ['\n']) := by
  obtain ⟨f, o, s⟩ := run_writes_counters ws d 0 (by decide) (by rw [htotal]; decide)
  rw [htotal] at s
  simp only [Nat.zero_add] at o s
  refine ⟨f, o, s, ?_, ?_⟩
  · intro h
    rw [o, s, Nat.mod_eq_of_lt h]
    exact ⟨rfl, rfl⟩
  · intro h
    have hlt : accepted_bytes ws (run_writes d 0 ws).2.2 < SIZE_MOD :=
      lt_trans h (by decide)
    have hsz : (run_writes d 0 ws).1.input_file_size
        = accepted_bytes ws (run_writes d 0 ws).2.2 := by rw [s, Nat.mod_eq_of_lt hlt]
    simp only [loop_release]
    rw [hexdump_buffer_final_small _ _ (by rw [hsz]; exact h), hsz]
    simp

theorem counters_follow_accepted_lengths_witness :
    (run_writes Driver.init 0 sample_calls).2.2 = [16, -22, -14, 16]
    ∧ accepted_bytes sample_calls (run_writes Driver.init 0 sample_calls).2.2 = 32
    ∧ ((run_writes Driver.init 0 sample_calls).2.1
          = accepted_bytes sample_calls (run_writes Driver.init 0 sample_calls).2.2
        ∧ (run_writes Driver.init 0 sample_calls).1.input_file_size
          = accepted_bytes sample_calls (run_writes Driver.init 0 sample_calls).2.2)
    ∧ (loop_release (run_writes Driver.init 0 sample_calls).1 true).1.output_file
        = (run_writes Driver.init 0 sample_calls).1.output_file
          ++ (if (run_writes Driver.init 0 sample_calls).1.fmt.repeated_lines
              then ['*', '\n'] else [])
          ++ fixedHex 7 (accepted_bytes sample_calls (run_writes Driver.init 0 sample_calls).2.2)
          ++ ['\n'] :=
  ⟨by decide, by decide,
    (counters_follow_accepted_lengths Driver.init sample_calls rfl).2.2.2.1 (by decide),
    (counters_follow_accepted_lengths Driver.init sample_calls rfl).2.2.2.2 (by decide)⟩

/-- C11: at base offset `2^32` the row at `i = 0` has the address `100000000`, nine digits, and
the address field written is `10000000`: `scnprintf` with `ADDRESS_WIDTH = 9` keeps eight
characters. The field written at `2^32` is the same as the (complete) field written at `2^28`, and at
`2^32 + 16` the field is `10000001`, the last digit being dropped again. -/
theorem row_address_truncated :
    fmt_07zx (2 ^ 32) = "100000000".toList
    ∧ (hexdump_buffer Formatter.init (mem_of (List.replicate 16 0x41) (fun _ => 0)) 16
          (2 ^ 32)).2
        = "10000000 4141 4141 4141 4141 4141 4141 4141 4141\n".toList
    ∧ (hexdump_buffer Formatter.init (mem_of (List.replicate 16 0x41) (fun _ => 0)) 16
          (2 ^ 32 + 16)).2
        = "10000001 4141 4141 4141 4141 4141 4141 4141 4141\n".toList
    ∧ (hexdump_buffer Formatter.init (mem_of (List.replicate 16 0x41) (fun _ => 0)) 16
          (2 ^ 28)).2
        = "10000000 4141 4141 4141 4141 4141 4141 4141 4141\n".toList := by
  decide

/-- C13: a write of length 0 returns `-EINVAL` and leaves `prev_line`, `repeated_lines`,
`input_file_size`, the output file and the file position as they were, whatever the state and
whatever the allocations and the copy would have done. -/
theorem loop_write_zero_length (d : Driver) (off : Nat) (w : WriteReq)
    (hlen : w.data.length = 0) :
    loop_write d off w = (d, off, -EINVAL) ∧ -EINVAL = (-22 : Int) := by
  simp [loop_write, hlen, EINVAL]

theorem loop_write_zero_length_witness :
    loop_write (sample_driver true 32) 32 (WriteReq.ok [])
      = (sample_driver true 32, 32, -EINVAL) ∧ -EINVAL = (-22 : Int) :=
  loop_write_zero_length (sample_driver true 32) 32 (WriteReq.ok []) rfl

/-- C14: a write of length at least 1 whose two allocations succeed and whose copy from user
space leaves bytes uncopied returns `-EFAULT` and leaves `prev_line`, `repeated_lines`,
`input_file_size`, the output file and the file position as they were. -/
theorem loop_write_transfer_fault (d : Driver) (off : Nat) (w : WriteReq)
    (hlen : 1 ≤ w.data.length) (hk : w.kmalloc_kernel_buffer = true)
    (hh : w.kmalloc_hexbuf = true) (hcopy : w.copy_from_user ≠ 0) :
    loop_write d off w = (d, off, -EFAULT) ∧ -EFAULT = (-14 : Int) := by
  have h0 : w.data.length ≠ 0 := by omega
  simp [loop_write, h0, hk, hh, hcopy, EFAULT]

/-- C15: `loop_open` changes none of `prev_line`, `repeated_lines`, `input_file_size`, whether
`filp_open` fails or not; a `loop_release` whose allocation succeeds leaves `prev_line` as it
was, clears `repeated_lines` and sets `input_file_size` to 0. Consequently, when the last
emitted row is the 16-byte row `R`, closing, opening again and writing exactly `R` gives the
write no text, and the whole transcript of the new session is the marker line and the trailer
`0000010`. -/
theorem formatter_state_survives_close_and_open (d : Driver) (R : List Byte) (w : WriteReq)
    (e : Option Int) (hR : R.length = 16) (hlast : d.fmt.prev_line = R)
    (hw : w.succeeds) (hdata : w.data = R) :
    ((loop_open d e).1.fmt = d.fmt ∧ (loop_open d e).1.input_file_size = d.input_file_size)
    ∧ ((loop_release d true).1.fmt.prev_line = d.fmt.prev_line
        ∧ (loop_release d true).1.fmt.repeated_lines = false
        ∧ (loop_release d true).1.input_file_size = 0)
    ∧ (run_writes (loop_open (loop_release d true).1 none).1 0 [w]).1.output_file = []
    ∧ (session (loop_release d true).1 [w]).output_file = "*\n0000010\n".toList := by
  have hfmt : (loop_release d true).1.fmt = { prev_line := R, repeated_lines := false } := by
    obtain ⟨⟨p, b⟩, total, out⟩ := d
    simp only at hlast
    subst hlast
    cases b <;> simp [loop_release, hexdump_buffer_final]
  have hsz : (loop_release d true).1.input_file_size = 0 := by simp [loop_release]
  have hl : w.data.length = 16 := by rw [hdata, hR]
  have hwrite : loop_write (loop_open (loop_release d true).1 none).1 0 w
      = ({ fmt := { prev_line := R, repeated_lines := true },
           input_file_size := 16, output_file := [] }, 16, 16) := by
    rw [loop_write_aligned _ _ w hw (by omega) (by omega) (by omega)]
    simp only [loop_open, hfmt, hsz, hdata, hR, spec_hexdump_same_row R false 0 hR]
    simp [SIZE_MOD]
  refine ⟨?_, ?_, ?_, ?_⟩
  · cases e <;> simp [loop_open]
  · rw [hfmt, hsz, hlast]; exact ⟨rfl, rfl, rfl⟩
  · simp only [run_writes, hwrite]
  · unfold session
    simp only [run_writes, hwrite]
    have h16 : fixedHex 7 16 = "0000010".toList := by decide
    simp [loop_release, hexdump_buffer_final_small _ 16 (by decide), h16]

theorem formatter_state_survives_close_and_open_witness :
    (session (loop_release (sample_driver true 32) true).1
        [WriteReq.ok (List.replicate 16 0x41)]).output_file = "*\n0000010\n".toList :=
  (formatter_state_survives_close_and_open (sample_driver true 32) (List.replicate 16 0x41)
    (WriteReq.ok (List.replicate 16 0x41)) none (by decide) rfl ⟨rfl, rfl, rfl⟩ rfl).2.2.2

theorem loop_write_transfer_fault_witness :
    loop_write (sample_driver true 32) 32 sample_fault
      = (sample_driver true 32, 32, -EFAULT) ∧ -EFAULT = (-14 : Int) :=
  loop_write_transfer_fault (sample_driver true 32) 32 sample_fault
    (by decide) rfl rfl (by decide)

/-- C18: in the initial formatter state a chunk of sixteen zero bytes at offset 0 gives
`hexdump_buffer` no text and leaves the repeat pending, whatever the heap holds behind the
chunk; the session that opens, writes these sixteen bytes and closes has the transcript made of
the marker line and the trailer `0000010`, with no row line. -/
theorem leading_zero_row_is_a_repeat (heap : Mem) (w : WriteReq) (hw : w.succeeds)
    (hdata : w.data = List.replicate 16 0) :
    hexdump_buffer Formatter.init (mem_of (List.replicate 16 0) heap) 16 0
      = ({ prev_line := List.replicate 16 0, repeated_lines := true }, [])
    ∧ (session Driver.init [w]).output_file = "*\n0000010\n".toList := by
  have hz : (List.replicate 16 (0 : Byte)).length = 16 := by decide
  have hdump : ∀ hp : Mem, hexdump_buffer Formatter.init (mem_of (List.replicate 16 0) hp) 16 0
      = ({ prev_line := List.replicate 16 0, repeated_lines := true }, []) := by
    intro hp
    have h := hexdump_buffer_aligned Formatter.init (List.replicate 16 0) hp 0
      (by decide) (by decide)
    rw [hz] at h
    rw [h]
    exact spec_hexdump_same_row (List.replicate 16 0) false 0 hz
  refine ⟨hdump heap, ?_⟩
  have hl : w.data.length = 16 := by rw [hdata]; decide
  simp only [session, run_writes, loop_open]
  rw [loop_write_ok _ _ w hw (by omega)]
  have h16 : fixedHex 7 16 = "0000010".toList := by decide
  simp only [hdata, hz, Driver.init, hdump w.heap]
  simp [loop_release, SIZE_MOD, hexdump_buffer_final_small _ 16 (by decide), h16]

theorem leading_zero_row_is_a_repeat_witness :
    hexdump_buffer Formatter.init (mem_of (List.replicate 16 0) (fun _ => 0xff)) 16 0
      = ({ prev_line := List.replicate 16 0, repeated_lines := true }, [])
    ∧ (session Driver.init [WriteReq.ok (List.replicate 16 0)]).output_file
      = "*\n0000010\n".toList :=
  leading_zero_row_is_a_repeat (fun _ => 0xff) (WriteReq.ok (List.replicate 16 0))
    ⟨rfl, rfl, rfl⟩ rfl

/-- C16: for a chunk of length `len >= 1` that is not a multiple of 16, `hexdump_buffer`
leaves in `prev_line` the full sixteen bytes stored from the start of the last row, a span
that reaches index `len` and beyond. So the result depends on bytes past the chunk: from any
state, at any offset and for any buffer, replacing the last byte of that span (an index at or
past `len`) by a different value gives a buffer that agrees on the first `len` bytes and leaves
a different `prev_line`. (The comparison reads the same span: the witness shows a 3-byte
chunk taken as a repeat or not according to the byte at index 15.) -/
theorem tail_row_reads_past_len (st : Formatter) (buf : Mem) (len off : Nat) (v : Byte)
    (hpos : 1 ≤ len) (hrem : len % 16 ≠ 0)
    (hv : v ≠ buf (last_row_start (padded_len len) + 15)) :
    (hexdump_buffer st buf len off).1.prev_line = row_at buf (last_row_start (padded_len len))
    ∧ len ≤ last_row_start (padded_len len) + 15
    ∧ (∀ k, k < len → poke buf (last_row_start (padded_len len) + 15) v k = buf k)
    ∧ (hexdump_buffer st (poke buf (last_row_start (padded_len len) + 15) v) len off).1.prev_line
        ≠ (hexdump_buffer st buf len off).1.prev_line := by
  have hcov := last_row_covers_past_len len hrem
  refine ⟨hexdump_buffer_prev_line st buf len off hpos, hcov.2, ?_, ?_⟩
  · intro k hk
    unfold poke
    rw [if_neg (by omega)]
  · rw [hexdump_buffer_prev_line st buf len off hpos, hexdump_buffer_prev_line st _ len off hpos]
    exact row_at_poke_last buf _ v hv

theorem tail_row_reads_past_len_witness :
    (∀ k, k < 3 → poke (mem_of [1, 2, 3] (fun _ => 0)) 15 0xff k
        = mem_of [1, 2, 3] (fun _ => 0) k)
    ∧ (hexdump_buffer Formatter.init (poke (mem_of [1, 2, 3] (fun _ => 0)) 15 0xff) 3 0).1.prev_line
        ≠ (hexdump_buffer Formatter.init (mem_of [1, 2, 3] (fun _ => 0)) 3 0).1.prev_line
    ∧ (hexdump_buffer { prev_line := [1, 2, 3] ++ List.replicate 13 0, repeated_lines := false }
        (mem_of [1, 2, 3] (fun _ => 0)) 3 0).2 = []
    ∧ (hexdump_buffer { prev_line := [1, 2, 3] ++ List.replicate 13 0, repeated_lines := false }
        (poke (mem_of [1, 2, 3] (fun _ => 0)) 15 0xff) 3 0).2
      = "0000000 0201 0003                              \n".toList :=
  ⟨(tail_row_reads_past_len Formatter.init (mem_of [1, 2, 3] (fun _ => 0)) 3 0 0xff
      (by decide) (by decide) (by decide)).2.2.1,
   (tail_row_reads_past_len Formatter.init (mem_of [1, 2, 3] (fun _ => 0)) 3 0 0xff
      (by decide) (by decide) (by decide)).2.2.2,
   by decide, by decide⟩

/-- C20: in the text of any `hexdump_buffer` call and of any `hexdump_buffer_final` call, from
any state, for any buffer, length, offset and total, every `*` is followed by a newline and
then by an address field (seven hexadecimal digits, the start of a row line or of the trailer);
the same holds for the transcript of any session (open, any writes, close), which therefore
never holds two marker lines in a row and never ends with a marker line. -/
theorem markers_never_adjacent_nor_dangling (st : Formatter) (buf : Mem) (len off total : Nat)
    (d : Driver) (ws : List WriteReq) :
    markers_followed (hexdump_buffer st buf len off).2
    ∧ markers_followed (hexdump_buffer_final st total).2
    ∧ markers_followed (session d ws).output_file
    ∧ (¬ ∃ pre post, (session d ws).output_file = pre ++ ['*', '\n', '*', '\n'] ++ post)
    ∧ (¬ ∃ pre, (session d ws).output_file = pre ++ ['*', '\n']) := by
  have hs := session_markers_followed d ws
  refine ⟨hexdump_buffer_markers_followed st buf len off,
    hexdump_buffer_final_markers_followed st total, hs, ?_, ?_⟩
  · rintro ⟨pre, post, h⟩
    obtain ⟨rest, hr, hsa⟩ := hs pre ('\n' :: '*' :: '\n' :: post) (by simpa using h)
    simp at hr
    subst hr
    have := hsa.2 '*' (by simp)
    revert this; decide
  · rintro ⟨pre, h⟩
    obtain ⟨rest, hr, hsa⟩ := hs pre ['\n'] (by simpa using h)
    simp at hr
    subst hr
    have := hsa.1
    simp at this

/-- C17: for chunks `a` and `b` whose lengths are positive multiples of 16, from any state,
at any offset and whatever the heap holds behind each buffer, one `hexdump_buffer` call on
`a ++ b` gives the final state of the call on `a` followed by the call on `b` at the offset
advanced by the length of `a`, and the concatenation of their texts. Hence two sequences of
successful writes of whole rows that carry the same byte stream leave, after the close, the
same state and the same transcript, trailer included. -/
theorem chunking_independence (st : Formatter) (a b : List Byte) (heap_a heap_b heap_ab : Mem)
    (o : Nat) (d : Driver) (ws1 ws2 : List WriteReq)
    (ha : 0 < a.length ∧ a.length % 16 = 0) (hb : 0 < b.length ∧ b.length % 16 = 0)
    (h1 : ∀ w ∈ ws1, w.succeeds ∧ 0 < w.data.length ∧ w.data.length % 16 = 0)
    (h2 : ∀ w ∈ ws2, w.succeeds ∧ 0 < w.data.length ∧ w.data.length % 16 = 0)
    (hstream : ws1.flatMap (·.data) = ws2.flatMap (·.data)) :
    hexdump_buffer st (mem_of (a ++ b) heap_ab) (a ++ b).length o
        = ((hexdump_buffer (hexdump_buffer st (mem_of a heap_a) a.length o).1
              (mem_of b heap_b) b.length (o + a.length)).1,
            (hexdump_buffer st (mem_of a heap_a) a.length o).2
              ++ (hexdump_buffer (hexdump_buffer st (mem_of a heap_a) a.length o).1
                    (mem_of b heap_b) b.length (o + a.length)).2)
    ∧ session d ws1 = session d ws2 := by
  refine ⟨?_, ?_⟩
  · rw [hexdump_buffer_eq_whole_rows_dump _ _ _ _ (by rw [List.length_append]; omega),
      hexdump_buffer_eq_whole_rows_dump _ _ _ _ ha.2, hexdump_buffer_eq_whole_rows_dump _ _ _ _ hb.2]
    exact whole_rows_dump_append st a b o ha.2
  · obtain ⟨f1, o1, s1⟩ := run_writes_whole_rows ws1 (loop_open d none).1 0 h1
    obtain ⟨f2, o2, s2⟩ := run_writes_whole_rows ws2 (loop_open d none).1 0 h2
    rw [hstream] at f1 o1 s1
    unfold session
    simp only [loop_release, f1, o1, s1, f2, o2, s2]
    simp


theorem chunking_independence_witness :
    hexdump_buffer Formatter.init
        (mem_of (List.replicate 16 0x41 ++ (List.replicate 16 0x41 ++ List.replicate 16 0x42))
          (fun _ => 0))
        (List.replicate 16 0x41 ++ (List.replicate 16 0x41 ++ List.replicate 16 0x42)).length 0
      = ((hexdump_buffer
            (hexdump_buffer Formatter.init (mem_of (List.replicate 16 0x41) (fun _ => 0))
              (List.replicate 16 (0x41 : Byte)).length 0).1
            (mem_of (List.replicate 16 0x41 ++ List.replicate 16 0x42) (fun _ => 0xff))
            (List.replicate 16 (0x41 : Byte) ++ List.replicate 16 0x42).length
            (0 + (List.replicate 16 (0x41 : Byte)).length)).1,
          (hexdump_buffer Formatter.init (mem_of (List.replicate 16 0x41) (fun _ => 0))
              (List.replicate 16 (0x41 : Byte)).length 0).2
            ++ (hexdump_buffer
                  (hexdump_buffer Formatter.init (mem_of (List.replicate 16 0x41) (fun _ => 0))
                    (List.replicate 16 (0x41 : Byte)).length 0).1
                  (mem_of (List.replicate 16 0x41 ++ List.replicate 16 0x42) (fun _ => 0xff))
                  (List.replicate 16 (0x41 : Byte) ++ List.replicate 16 0x42).length
                  (0 + (List.replicate 16 (0x41 : Byte)).length)).2)
    ∧ session Driver.init
        [WriteReq.ok (List.replicate 16 0x41),
          WriteReq.ok (List.replicate 16 0x41 ++ List.replicate 16 0x42)]
      = session Driver.init
        [WriteReq.ok (List.replicate 16 0x41 ++ List.replicate 16 0x41),
          WriteReq.ok (List.replicate 16 0x42)] :=
  chunking_independence Formatter.init (List.replicate 16 0x41)
    (List.replicate 16 0x41 ++ List.replicate 16 0x42) (fun _ => 0) (fun _ => 0xff) (fun _ => 0)
    0 Driver.init
    [WriteReq.ok (List.replicate 16 0x41),
      WriteReq.ok (List.replicate 16 0x41 ++ List.replicate 16 0x42)]
    [WriteReq.ok (List.replicate 16 0x41 ++ List.replicate 16 0x41),
      WriteReq.ok (List.replicate 16 0x42)]
    (by decide) (by decide)
    (by intro w hw; fin_cases hw <;> exact ⟨⟨rfl, rfl, rfl⟩, by decide, by decide⟩)
    (by intro w hw; fin_cases hw <;> exact ⟨⟨rfl, rfl, rfl⟩, by decide, by decide⟩)
    (by decide)

end LoopDriver
